import Mathlib

/-!
Verification development for the PDF organizer (`src/pdfOrganizer.js`).

The JavaScript source is shallowly embedded over `List Char`: every regex-based
string operation of the source is translated into an executable Lean function
that mirrors the backtracking semantics of the original pattern, and the
filesystem side of `processPdfFile` / `main` is modelled by explicit state
passing over a finite list of (path, content) pairs.
-/

namespace PdfOrganizer

/-! ## Character classes (as used by the source's regexes) -/

/-- `[A-Z]` -/
def latinUpper (c : Char) : Bool := 'A' ≤ c && c ≤ 'Z'

/-- `[a-z]` -/
def latinLower (c : Char) : Bool := 'a' ≤ c && c ≤ 'z'

/-- `[А-Я]` (Cyrillic capitals U+0410–U+042F) -/
def cyrUpper (c : Char) : Bool := 'А' ≤ c && c ≤ 'Я'

/-- `[а-я]` (Cyrillic small letters U+0430–U+044F) -/
def cyrLower (c : Char) : Bool := 'а' ≤ c && c ≤ 'я'

/-- `[A-Za-zА-Яа-я]` — the source's letter class. -/
def isLetterJS (c : Char) : Bool := latinUpper c || latinLower c || cyrUpper c || cyrLower c

/-- `[A-ZА-Я]` -/
def isUpperJS (c : Char) : Bool := latinUpper c || cyrUpper c

/-- `[a-zа-я]` -/
def isLowerJS (c : Char) : Bool := latinLower c || cyrLower c

/-- `\d` -/
def isDigitJS (c : Char) : Bool := '0' ≤ c && c ≤ '9'

/-- JavaScript `\s` (the whitespace characters that can occur in our inputs). -/
def isSpaceJS (c : Char) : Bool :=
  c = ' ' || c = '\t' || c = '\n' || c = '\r' ||
  c = Char.ofNat 11 || c = Char.ofNat 12 || c = Char.ofNat 160

/-- JavaScript `.` — any character except line terminators. -/
def isDotAny (c : Char) : Bool :=
  !(c = '\n' || c = '\r' || c = Char.ofNat 0x2028 || c = Char.ofNat 0x2029)

/-- `String.prototype.toLowerCase` restricted to the Latin/Cyrillic letters the
source's case-insensitive regexes can meet. -/
def toLowerJS (c : Char) : Char :=
  if latinUpper c then Char.ofNat (c.toNat + 32)
  else if cyrUpper c then Char.ofNat (c.toNat + 32)
  else c

/-! ## Low-level string helpers (TextNormalizer) -/

/-- `String.prototype.trim` (both ends, JS whitespace). -/
def trimJS (cs : List Char) : List Char :=
  ((cs.dropWhile isSpaceJS).reverse.dropWhile isSpaceJS).reverse

/-- Strip only trailing whitespace. -/
def rtrimSpaces (cs : List Char) : List Char :=
  (cs.reverse.dropWhile isSpaceJS).reverse

theorem dropWhile_length_le (p : Char → Bool) (l : List Char) :
    (l.dropWhile p).length ≤ l.length := by
  induction l with
  | nil => simp [List.dropWhile]
  | cons c cs ih =>
    simp only [List.dropWhile]
    cases p c <;> simp <;> omega

/-- `replace(/p+/g, r)` for a character class `p`: every maximal run of
`p`-characters is replaced by the single character `r`.  The `Nat` argument is
fuel (structural recursion so the kernel can evaluate); one unit is consumed
per emitted character, so `cs.length` is always enough. -/
def collapseRunsF (p : Char → Bool) (r : Char) : Nat → List Char → List Char
  | 0, _ => []
  | _ + 1, [] => []
  | fuel + 1, c :: cs =>
    if p c then r :: collapseRunsF p r fuel (cs.dropWhile p)
    else c :: collapseRunsF p r fuel cs

def collapseRuns (p : Char → Bool) (r : Char) (cs : List Char) : List Char :=
  collapseRunsF p r cs.length cs

/-- `cleanupText` (source lines 43–50): collapse runs of `_`/`.` to single
spaces, collapse whitespace runs, trim.  `if (!text) return text` is the
empty-string identity. -/
def cleanupText (cs : List Char) : List Char :=
  if cs.isEmpty then cs
  else trimJS (collapseRuns isSpaceJS ' '
    (collapseRuns (fun c => c = '_' || c = '.') ' ' cs))

/-- JS `split(/\s+/)` scan (fuel-structural). -/
def splitWsGo : Nat → List Char → List Char → List (List Char)
  | 0, _, acc => [acc.reverse]
  | _ + 1, [], acc => [acc.reverse]
  | fuel + 1, c :: cs, acc =>
    if isSpaceJS c then acc.reverse :: splitWsGo fuel (cs.dropWhile isSpaceJS) []
    else splitWsGo fuel cs (c :: acc)

/-- `text.split(/\s+/)`. -/
def splitWhitespace (cs : List Char) : List (List Char) := splitWsGo cs.length cs []

/-- `text.split(/\s*[-,]\s*/)`: a separator is a `-` or `,` together with the
whitespace runs directly around it (the leftmost match of the separator regex
starts at the whitespace run immediately preceding the first `-`/`,`). -/
def splitDashCommaGo : Nat → List Char → List Char → List (List Char)
  | 0, _, acc => [acc.reverse]
  | _ + 1, [], acc => [acc.reverse]
  | fuel + 1, c :: cs, acc =>
    if c = '-' || c = ',' then
      (acc.dropWhile isSpaceJS).reverse ::
        splitDashCommaGo fuel (cs.dropWhile isSpaceJS) []
    else splitDashCommaGo fuel cs (c :: acc)

/-- `text.split(/\s*[-,]\s*/)` (used by `isValidAuthorName`). -/
def splitDashComma (cs : List Char) : List (List Char) := splitDashCommaGo cs.length cs []

/-! ## SimilarityMetric: `levenshteinDistance` (source lines 109–136)

The source fills a `(m+1) × (n+1)` table row by row; `levRowGo` computes the
entries `dp[i][1..n]` of one row from the previous row, carrying the
diagonal (`dp[i-1][j-1]`) and left (`dp[i][j-1]`) values. -/

def levRowGo (a : Char) : List Char → List Nat → Nat → Nat → List Nat
  | [], _, _, _ => []
  | _ :: _, [], _, _ => []
  | b :: bs, up :: ps, diag, left =>
    let v := if a = b then diag else 1 + min up (min left diag)
    v :: levRowGo a bs ps up v

/-- Row `i` of the table (`dp[i][0] = i`, then the recurrence). -/
def levRow (a : Char) (t : List Char) (prev : List Nat) (i : Nat) : List Nat :=
  i :: levRowGo a t prev.tail (prev.headD 0) i

/-- `levenshteinDistance(str1, str2)`: classic DP, value `dp[m][n]`. -/
def levenshteinDistance (s t : List Char) : Nat :=
  (s.enum.foldl (fun prev p => levRow p.2 t prev (p.1 + 1))
    (List.range (t.length + 1))).getLastD 0

/-! ## AuthorValidator (source lines 52–158) -/

/-- `/(.)\1{2,}/` — three or more equal consecutive characters. -/
def hasTripleRepeat : List Char → Bool
  | a :: b :: c :: rest =>
    (a = b && b = c && isDotAny a) || hasTripleRepeat (b :: c :: rest)
  | _ => false

/-- `/(.)\1{3,}/` — four or more equal consecutive characters. -/
def hasQuadRepeat : List Char → Bool
  | a :: b :: c :: d :: rest =>
    (a = b && b = c && c = d && isDotAny a) || hasQuadRepeat (b :: c :: d :: rest)
  | _ => false

/-- `/^[a-z]+\d+$/i` — ASCII letters followed by digits. -/
def usernameShape (cs : List Char) : Bool :=
  let letters := cs.takeWhile (fun c => latinLower c || latinUpper c)
  let rest := cs.drop letters.length
  !letters.isEmpty && !rest.isEmpty && rest.all isDigitJS

/-- `/^[A-ZА-Я][a-zа-я]+$/` — a capitalized word. -/
def capWord : List Char → Bool
  | c :: rest => isUpperJS c && !rest.isEmpty && rest.all isLowerJS
  | [] => false

/-- The source's name-shape pattern
`/^[A-ZА-Я][a-zа-я]+$|^[A-ZА-Я]\.$|^[A-ZА-Я]$|^[A-ZА-Я][a-zа-я]+[A-ZА-Яa-zа-я\s]*$/`. -/
def nameShape (cs : List Char) : Bool :=
  capWord cs ||
  (match cs with | [c, d] => isUpperJS c && d = '.' | _ => false) ||
  (match cs with | [c] => isUpperJS c | _ => false) ||
  (match cs with
   | c :: d :: rest =>
     isUpperJS c && isLowerJS d &&
       rest.all (fun x => isUpperJS x || isLowerJS x || isSpaceJS x)
   | _ => false)

/-- Duplicate detection on the lowercased parts (`new Set(...).size < parts.length`). -/
def hasDup : List (List Char) → Bool
  | [] => false
  | p :: rest => rest.contains p || hasDup rest

/-- The pairwise `i < j` loop of `isValidAuthorName`: no two parts equal after
lowercasing, and short parts (length < 10 each) at edit distance > 1. -/
def pairsOk : List (List Char) → Bool
  | [] => true
  | p :: rest =>
    rest.all (fun q =>
      !(p.map toLowerJS == q.map toLowerJS) &&
      (!(p.length < 10 && q.length < 10) || levenshteinDistance p q > 1)) &&
    pairsOk rest

/-- `const cleanText = text.replace(/[.,\s-]/g, "")`. -/
def authorCleanText (text : List Char) : List Char :=
  text.filter (fun c => !(c = '.' || c = ',' || c = '-' || isSpaceJS c))

/-- `isValidAuthorName` (source lines 52–106). -/
def isValidAuthorName (text : List Char) : Bool :=
  if text.isEmpty then false
  else if hasTripleRepeat (authorCleanText text) then false
  else if !(authorCleanText text).isEmpty &&
      (authorCleanText text).all (fun c => !(isLetterJS c || isDigitJS c)) then false
  else if !(authorCleanText text).any isLetterJS then false
  else if (authorCleanText text).length < 2 || (authorCleanText text).length > 100 then
    false
  else if hasDup ((splitDashComma text).map (List.map toLowerJS)) then false
  else if (splitDashComma text).length > 6 then false
  else if (splitDashComma text).any usernameShape then false
  else if !(splitDashComma text).any nameShape then false
  else pairsOk (splitDashComma text)

/-- `/^[A-ZА-Я]\.$|^[A-ZА-Я]$/` — an initial-shaped word. -/
def initialShape : List Char → Bool
  | [c] => isUpperJS c
  | [c, d] => isUpperJS c && d = '.'
  | _ => false

/-- `isLikelyAuthor` (source lines 138–158). -/
def isLikelyAuthor (text : List Char) : Bool :=
  if !isValidAuthorName text then false
  else
    let words := splitWhitespace text
    let hasInitials := words.any initialShape
    let hasCommaOrDot := text.any (fun c => c = '.' || c = ',')
    let isShortName := words.length ≤ 3 && words.any (fun w => w.length ≤ 2)
    hasInitials || (hasCommaOrDot && isShortName) || (words.length ≤ 3 && hasInitials)

/-! ## FilenameParser (source lines 160–264) -/

/-- `path.parse(basename).name`: strip the extension (everything from the last
dot, unless that dot is the first character). -/
def parseNameOf (cs : List Char) : List Char :=
  if (cs.reverse.takeWhile (· ≠ '.')).length = cs.length then cs  -- no dot at all
  else if cs.length - (cs.reverse.takeWhile (· ≠ '.')).length - 1 = 0 then cs
  else cs.take (cs.length - (cs.reverse.takeWhile (· ≠ '.')).length - 1)

/-- The publisher prefixes removed by `parseFilename` (same order as the
source array). -/
def publishers : List (List Char) :=
  [("Dorling Kindersley").data, ("DK").data, ("McGraw-Hill").data,
   ("McGraw Hill").data, ("O".data ++ [Char.ofNat 39] ++ "Reilly".data),
   ("Packt").data, ("Apress").data, ("Manning").data, ("Wiley").data]

/-- One step of the publisher loop: `replace(new RegExp("^" + p + "\\.?\\s*", "i"), "")`. -/
def stripPublisher (cs pub : List Char) : List Char :=
  if (cs.take pub.length).map toLowerJS = pub.map toLowerJS ∧ pub.length ≤ cs.length then
    (if (cs.drop pub.length).head? = some '.' then (cs.drop pub.length).tail
     else cs.drop pub.length).dropWhile isSpaceJS
  else cs

/-- The `publishersToRemove.forEach` loop. -/
def stripPublishers (cs : List Char) : List Char := publishers.foldl stripPublisher cs

/-- Does the *whole* list match `[\[\(]?(\d{4})[\]\)]?(?:\s*)?$` (anchored at
both ends)?  Returns the year when it does. -/
def matchYearSuffix (u : List Char) : Option Nat :=
  let v := if u.head? = some '[' ∨ u.head? = some '(' then u.tail else u
  match v with
  | a :: b :: c :: d :: rest =>
    if isDigitJS a && isDigitJS b && isDigitJS c && isDigitJS d then
      let rest2 := if rest.head? = some ']' ∨ rest.head? = some ')' then rest.tail else rest
      if rest2.all isSpaceJS then
        some ((((a.toNat - 48) * 10 + (b.toNat - 48)) * 10 + (c.toNat - 48)) * 10
          + (d.toNat - 48))
      else none
    else none
  | _ => none

/-- `cleanName.match(yearPattern)`: leftmost position whose suffix matches the
year pattern; returns (number of characters before the match, year). -/
def yearSearch : List Char → Option (Nat × Nat)
  | [] => none
  | c :: cs =>
    match matchYearSuffix (c :: cs) with
    | some y => some (0, y)
    | none =>
      match yearSearch cs with
      | some (i, y) => some (i + 1, y)
      | none => none

/-- `\s+-\s+` followed by `(.+?)$`, starting at `u`: the space run, the dash,
then the greedy-backtracking `\s+` before a nonempty final group of
non-line-terminator characters.  Returns the final group. -/
def sepTail (u2 : List Char) : Nat → Option (List Char)
  | 0 => none
  | j + 1 =>
    let g := u2.drop (j + 1)
    if !g.isEmpty && g.all isDotAny then some g else sepTail u2 j

def sepMatch (u : List Char) : Option (List Char) :=
  if (u.takeWhile isSpaceJS).isEmpty then none
  else
    match u.drop (u.takeWhile isSpaceJS).length with
    | '-' :: u2 =>
      if (u2.takeWhile isSpaceJS).isEmpty then none
      else sepTail u2 (u2.takeWhile isSpaceJS).length
    | _ => none

/-- First `some` value of `f` over a list (the regex engine's priority order). -/
def firstSome {α β : Type} (f : α → Option β) : List α → Option β
  | [] => none
  | x :: xs => match f x with | some y => some y | none => firstSome f xs

/-- Character class `[A-Za-zА-Яа-я\s,.]` of the author-shaped groups. -/
def authorCls (c : Char) : Bool := isLetterJS c || isSpaceJS c || c = ',' || c = '.'

/-- Pattern `^([A-Za-zА-Яа-я][A-Za-zА-Яа-я\s,.]{0,50}?)\s+-\s+(.+?)$`
(lazy first group: smallest group length `k ∈ [1,51]` wins). -/
def matchP1 (cs : List Char) : Option (List Char × List Char) :=
  firstSome (fun k =>
    if (cs.take k).length = k ∧ ((cs.take k).head?.map isLetterJS).getD false = true ∧
        (cs.take k).tail.all authorCls then
      (sepMatch (cs.drop k)).map (fun g2 => (cs.take k, g2))
    else none) (List.range' 1 51)

/-- The author-shaped group at the very end of the string, after a `\s+` run:
`([A-Za-zА-Яа-я][A-Za-zА-Яа-я\s,.]{0,50}?)$` when `capped` is true (length
1–51), `([A-Za-zА-Яа-я][A-Za-zА-Яа-я\s,.]+?)$` when not (length at least
2, the `+` needing one character after the leading letter). -/
def endAuthorGroup (capped : Bool) (u2 : List Char) : Option (List Char) :=
  if (u2.takeWhile isSpaceJS).isEmpty then none
  else
    if !(u2.drop (u2.takeWhile isSpaceJS).length).isEmpty &&
        (((u2.drop (u2.takeWhile isSpaceJS).length).head?.map isLetterJS).getD false
          = true) &&
        (u2.drop (u2.takeWhile isSpaceJS).length).tail.all authorCls &&
        (!capped || (u2.drop (u2.takeWhile isSpaceJS).length).length ≤ 51) &&
        (capped || 1 < (u2.drop (u2.takeWhile isSpaceJS).length).length) then
      some (u2.drop (u2.takeWhile isSpaceJS).length)
    else none

/-- Pattern `^(.+?)\s+-\s+([A-Za-zА-Яа-я][A-Za-zА-Яа-я\s,.]{0,50}?)$`. -/
def matchP2 (cs : List Char) : Option (List Char × List Char) :=
  firstSome (fun i =>
    if (cs.take i).length = i ∧ (cs.take i).all isDotAny then
      if ((cs.drop i).takeWhile isSpaceJS).isEmpty then none
      else
        match (cs.drop i).drop ((cs.drop i).takeWhile isSpaceJS).length with
        | '-' :: u2 => (endAuthorGroup true u2).map (fun g2 => (cs.take i, g2))
        | _ => none
    else none) (List.range' 1 cs.length)

/-- Pattern `^(.+?)\s+by\s+([A-Za-zА-Яа-я][A-Za-zА-Яа-я\s,.]+?)$/i`. -/
def matchP3 (cs : List Char) : Option (List Char × List Char) :=
  firstSome (fun i =>
    if (cs.take i).length = i ∧ (cs.take i).all isDotAny then
      if ((cs.drop i).takeWhile isSpaceJS).isEmpty then none
      else
        match (cs.drop i).drop ((cs.drop i).takeWhile isSpaceJS).length with
        | b :: y :: u2 =>
          if (b = 'b' ∨ b = 'B') ∧ (y = 'y' ∨ y = 'Y') then
            (endAuthorGroup false u2).map (fun g2 => (cs.take i, g2))
          else none
        | _ => none
    else none) (List.range' 1 cs.length)

/-- Pattern `^(.+?)\s+\(([A-Za-zА-Яа-я][A-Za-zА-Яа-я\s,.]+?)\)$`. -/
def matchP4 (cs : List Char) : Option (List Char × List Char) :=
  firstSome (fun i =>
    if (cs.take i).length = i ∧ (cs.take i).all isDotAny then
      if ((cs.drop i).takeWhile isSpaceJS).isEmpty then none
      else
        match (cs.drop i).drop ((cs.drop i).takeWhile isSpaceJS).length with
        | '(' :: w =>
          if (w.takeWhile (· ≠ ')')).length + 1 = w.length ∧
              1 < (w.takeWhile (· ≠ ')')).length ∧
              ((w.takeWhile (· ≠ ')')).head?.map isLetterJS).getD false = true ∧
              (w.takeWhile (· ≠ ')')).tail.all authorCls then
            some (cs.take i, w.takeWhile (· ≠ ')'))
          else none
        | _ => none
    else none) (List.range' 1 cs.length)

/-- The parsed `{title, author, year}` record.  `title`/`author` are JS strings
or `null`; `year` is a number or `null`. -/
structure Meta where
  title : Option (List Char)
  author : Option (List Char)
  year : Option Nat
deriving DecidableEq, Repr

/-- JS truthiness of a string field (`null`/`undefined`/`""` are falsy). -/
def strTruthy : Option (List Char) → Bool
  | none => false
  | some s => !s.isEmpty

/-- JS truthiness of a numeric field (`null`/`0` are falsy). -/
def yearTruthy : Option Nat → Bool
  | none => false
  | some y => y ≠ 0

/-- The two-part decision of `parseFilename` (source lines 213–245): trim both
groups, prefer the `isLikelyAuthor` side (first side if both), otherwise take
the shorter side as author. -/
def decideSplit (m1 m2 : List Char) (year : Option Nat) : Meta :=
  let firstPart := trimJS m1
  let secondPart := trimJS m2
  let isFirstPartAuthor := isLikelyAuthor firstPart
  let isSecondPartAuthor := isLikelyAuthor secondPart
  if isFirstPartAuthor || isSecondPartAuthor then
    if isFirstPartAuthor then
      ⟨some secondPart, some firstPart, year⟩
    else
      ⟨some firstPart, some secondPart, year⟩
  else if firstPart.length ≤ secondPart.length then
    ⟨some secondPart, some firstPart, year⟩
  else
    ⟨some firstPart, some secondPart, year⟩

/-- The cleaned name before year removal:
`cleanupText(path.parse(filename).name)` with publisher prefixes stripped. -/
def preYearName (filename : List Char) : List Char :=
  stripPublishers (cleanupText (parseNameOf filename))

/-- The year parsed out of the filename (`null` when the pattern is absent). -/
def yearOf (filename : List Char) : Option Nat :=
  (yearSearch (preYearName filename)).map (·.2)

/-- The working string after the (truthy) year has been removed and trimmed. -/
def cleanNameOf (filename : List Char) : List Char :=
  if yearTruthy (yearOf filename) then
    match yearSearch (preYearName filename) with
    | some (i, _) => trimJS ((preYearName filename).take i)
    | none => preYearName filename
  else preYearName filename

/-- `parseFilename` (source lines 160–264). -/
def parseFilename (filename : List Char) : Meta :=
  match matchP1 (cleanNameOf filename) with
  | some (g1, g2) => decideSplit g1 g2 (yearOf filename)
  | none =>
    match matchP2 (cleanNameOf filename) with
    | some (g1, g2) => decideSplit g1 g2 (yearOf filename)
    | none =>
      match matchP3 (cleanNameOf filename) with
      | some (g1, g2) => decideSplit g1 g2 (yearOf filename)
      | none =>
        match matchP4 (cleanNameOf filename) with
        | some (g1, g2) => decideSplit g1 g2 (yearOf filename)
        | none =>
          if !(cleanNameOf filename).isEmpty && (cleanNameOf filename).all isDotAny then
            ⟨some (trimJS (cleanNameOf filename)), none, yearOf filename⟩
          else
            ⟨some (cleanNameOf filename), none, yearOf filename⟩

/-! ## FilenameFormatter (source lines 266–386) -/

/-- `author.split(/\s*[,]\s*|\s+/)`: at each position the comma alternative is
preferred (a whitespace run followed by a comma joins that comma's separator). -/
def splitAuthorSepGo : Nat → List Char → List Char → List (List Char)
  | 0, _, acc => [acc.reverse]
  | _ + 1, [], acc => [acc.reverse]
  | fuel + 1, c :: cs, acc =>
    if c = ',' then acc.reverse :: splitAuthorSepGo fuel (cs.dropWhile isSpaceJS) []
    else if isSpaceJS c then
      -- the separator starts at this whitespace run; since `c` is a space,
      -- `(c :: cs).dropWhile isSpaceJS = cs.dropWhile isSpaceJS`
      match cs.dropWhile isSpaceJS with
      | ',' :: rest2 => acc.reverse :: splitAuthorSepGo fuel (rest2.dropWhile isSpaceJS) []
      | rest => acc.reverse :: splitAuthorSepGo fuel rest []
    else splitAuthorSepGo fuel cs (c :: acc)

def splitAuthorSep (cs : List Char) : List (List Char) :=
  splitAuthorSepGo cs.length cs []

/-- `/^[A-ZА-Я]\.?$/` — a single capital, optionally followed by a dot. -/
def initialDotOpt : List Char → Bool
  | [c] => isUpperJS c
  | [c, d] => isUpperJS c && d = '.'
  | _ => false

/-- `part.replace(/\.$/, "") + "."` — force a trailing dot. -/
def forceDot (p : List Char) : List Char :=
  (if p.getLast? = some '.' then p.dropLast else p) ++ ['.']

/-- `currentAuthor.join(" ")`. -/
def joinSpace : List (List Char) → List Char
  | [] => []
  | [p] => p
  | p :: ps => p ++ ' ' :: joinSpace ps

/-- The author-grouping loop of `formatAuthorName` (source lines 288–314):
push each part (dotting single capitals), close the group at the end of the
list or before a capitalized word. -/
def groupAuthors : List (List Char) → List (List Char) → List (List Char) → List (List Char)
  | [], _, authors => authors
  | p :: rest, cur, authors =>
    let p' := if (match p with | [c] => isUpperJS c | _ => false) then p ++ ['.'] else p
    let cur' := cur ++ [p']
    let nextNew := match rest with
      | q :: _ => !q.isEmpty && capWord q
      | [] => false
    if rest.isEmpty || nextNew then
      let authorName := trimJS (joinSpace cur')
      groupAuthors rest [] (if authorName.isEmpty then authors else authors ++ [authorName])
    else groupAuthors rest cur' authors

/-- Global `replace(/\s*,\s*/g, ", ")` (comma-spacing normalization,
fuel-structural). -/
def commaNormF : Nat → List Char → List Char
  | 0, _ => []
  | _ + 1, [] => []
  | fuel + 1, c :: cs =>
    if c = ',' then ',' :: ' ' :: commaNormF fuel (cs.dropWhile isSpaceJS)
    else if isSpaceJS c then
      match cs.dropWhile isSpaceJS with
      | ',' :: rest2 => ',' :: ' ' :: commaNormF fuel (rest2.dropWhile isSpaceJS)
      | _ => c :: commaNormF fuel cs
    else c :: commaNormF fuel cs

def commaNorm (cs : List Char) : List Char := commaNormF cs.length cs

/-- `authors.map((a, i) => i < len-1 ? a + "," : a)`. -/
def addCommas : List (List Char) → List (List Char)
  | [] => []
  | [a] => [a]
  | a :: rest => (a ++ [',']) :: addCommas rest

/-- `formatAuthorName` (source lines 266–331). -/
def formatAuthorName (author : List Char) : List Char :=
  if author.isEmpty then author
  else
    let parts := splitAuthorSep author
    if 2 ≤ parts.length ∧ parts.dropLast.all initialDotOpt then
      joinSpace (parts.dropLast.map forceDot ++ [parts.getLastD []])
    else
      let authors := groupAuthors parts [] []
      if 2 ≤ authors.length then
        trimJS (commaNorm (joinSpace (addCommas authors)))
      else
        authors.headD []

/-- `replace(/\s*-\s*$/, "")` — strip one trailing dash with its whitespace. -/
def removeTrailingDashPat (cs : List Char) : List Char :=
  match (rtrimSpaces cs).getLast? with
  | some '-' => rtrimSpaces (rtrimSpaces cs).dropLast
  | _ => cs

/-- `replace(/^\s*-\s*/, "")` — strip one leading dash with its whitespace. -/
def removeLeadingDashPat (cs : List Char) : List Char :=
  match cs.dropWhile isSpaceJS with
  | '-' :: rest => rest.dropWhile isSpaceJS
  | _ => cs

/-- `replace(/[<>:"/\\|?*]/g, "-")`. -/
def sanitizeChar (c : Char) : Char :=
  if c = '<' || c = '>' || c = ':' || c = '"' || c = '/' || c = '\\' ||
      c = '|' || c = '?' || c = '*' then '-' else c

/-- A `\s+-\s+-\s+` match starting exactly at the head; returns the remainder
after the match. -/
def ddMatchRem (u : List Char) : Option (List Char) :=
  if (u.takeWhile isSpaceJS).isEmpty then none
  else
    match u.drop (u.takeWhile isSpaceJS).length with
    | '-' :: v =>
      if (v.takeWhile isSpaceJS).isEmpty then none
      else
        match v.drop (v.takeWhile isSpaceJS).length with
        | '-' :: w =>
          if (w.takeWhile isSpaceJS).isEmpty then none
          else some (w.drop (w.takeWhile isSpaceJS).length)
        | _ => none
    | _ => none

theorem ddMatchRem_shrink (u rem : List Char) (h : ddMatchRem u = some rem) :
    rem.length < u.length := by
  unfold ddMatchRem at h
  split at h
  · exact absurd h (by simp)
  · rename_i hr1
    split at h
    · rename_i v hv
      split at h
      · exact absurd h (by simp)
      · rename_i hr2
        split at h
        · rename_i w hw
          split at h
          · exact absurd h (by simp)
          · simp only [Option.some.injEq] at h
            have b1 : v.length < u.length := by
              have := congrArg List.length hv
              simp only [List.length_drop, List.length_cons] at this
              omega
            have b2 : w.length < v.length := by
              have := congrArg List.length hw
              simp only [List.length_drop, List.length_cons] at this
              have := dropWhile_length_le isSpaceJS v
              omega
            have b3 : rem.length ≤ w.length := by
              rw [← h]; simp [List.length_drop]
            omega
        · exact absurd h (by simp)
    · exact absurd h (by simp)

/-- Global `replace(/\s+-\s+-\s+/g, " - ")` (fuel-structural). -/
def ddReplaceF : Nat → List Char → List Char
  | 0, _ => []
  | _ + 1, [] => []
  | fuel + 1, c :: cs =>
    match ddMatchRem (c :: cs) with
    | some rem => ' ' :: '-' :: ' ' :: ddReplaceF fuel rem
    | none => c :: ddReplaceF fuel cs

def ddReplace (cs : List Char) : List Char := ddReplaceF cs.length cs

/-- Substring test (`String.prototype.includes`). -/
def isPrefixSeq : List Char → List Char → Bool
  | [], _ => true
  | _ :: _, [] => false
  | a :: as, b :: bs => a = b && isPrefixSeq as bs

def containsSeq (needle : List Char) : List Char → Bool
  | [] => needle.isEmpty
  | c :: cs => isPrefixSeq needle (c :: cs) || containsSeq needle cs

/-- One decimal digit `0..9` as a character. -/
def digitCharJS (d : Nat) : Char := Char.ofNat (48 + d)

def natToCharsF : Nat → Nat → List Char
  | 0, _ => []
  | fuel + 1, n =>
    if n < 10 then [digitCharJS n]
    else natToCharsF fuel (n / 10) ++ [digitCharJS (n % 10)]

/-- Decimal digits of a number (template literal `${year}`). -/
def natToChars (n : Nat) : List Char := natToCharsF (n + 1) n

/-- The cleaned title (`cleanupText` plus edge-dash stripping,
source lines 337–339). -/
def cleanTitleOf (m : Meta) : List Char :=
  removeLeadingDashPat (removeTrailingDashPat (cleanupText (m.title.getD [])))

/-- The reformatted author with edge dashes stripped (source lines 350–352). -/
def formattedAuthorOf (a : List Char) : List Char :=
  removeLeadingDashPat (removeTrailingDashPat (formatAuthorName a))

/-- `newName` after the author has (possibly) been appended
(source lines 346–358). -/
def withAuthorOf (m : Meta) : List Char :=
  match m.author with
  | none => cleanTitleOf m
  | some a0 =>
    if !(cleanupText a0).isEmpty && isValidAuthorName (cleanupText a0) then
      if !(formattedAuthorOf (cleanupText a0)).isEmpty &&
          !((cleanTitleOf m).getLast? = some '-') &&
          !((formattedAuthorOf (cleanupText a0)).head? = some '-') then
        cleanTitleOf m ++ ' ' :: '-' :: ' ' :: formattedAuthorOf (cleanupText a0)
      else cleanTitleOf m
    else cleanTitleOf m

/-- The ` [year]` suffix (empty when the year is falsy). -/
def yearSuffixOf (m : Meta) : List Char :=
  if yearTruthy m.year then ' ' :: '[' :: natToChars (m.year.getD 0) ++ [']'] else []

/-- `newName` after sanitization (source lines 365–370). -/
def sanitizedOf (m : Meta) : List Char :=
  trimJS (collapseRuns isSpaceJS ' '
    (ddReplace ((withAuthorOf m ++ yearSuffixOf m).map sanitizeChar)))

/-- The anomaly test of source lines 372–377. -/
def anomalous (s : List Char) : Bool :=
  containsSeq (' ' :: '-' :: ' ' :: '-' :: [' ']) s ||
  containsSeq ('j' :: 'r' :: 'o' :: 's' :: ['s']) s ||
  hasQuadRepeat s

/-- `generateNewFilename` (source lines 333–386). -/
def generateNewFilename (m : Meta) : Option (List Char) :=
  if !strTruthy m.title then none
  else if (cleanTitleOf m).isEmpty then none
  else if anomalous (sanitizedOf m) then
    some ((cleanTitleOf m ++ yearSuffixOf m) ++ '.' :: 'p' :: 'd' :: ['f'])
  else
    some (sanitizedOf m ++ '.' :: 'p' :: 'd' :: ['f'])

/-! ## Levenshtein theory

`levR` is the textbook head-recursion for edit distance; the source's DP table
computes `levR` on the *reversed* strings (row `i`, column `j` of the table is
the distance between the length-`i` and length-`j` prefixes, and the
recurrence peels the last character of each prefix). -/

def levR : List Char → List Char → Nat
  | [], t => t.length
  | a :: s, [] => (a :: s).length
  | a :: s, b :: t =>
    if a = b then levR s t
    else 1 + min (levR s (b :: t)) (min (levR (a :: s) t) (levR s t))
termination_by s t => s.length + t.length
decreasing_by all_goals simp +arith

theorem levR_nil_left (t : List Char) : levR [] t = t.length := by
  cases t <;> simp [levR]

theorem levR_nil_right (s : List Char) : levR s [] = s.length := by
  cases s <;> simp [levR]

theorem levR_cons_cons (a b : Char) (s t : List Char) :
    levR (a :: s) (b :: t) =
      if a = b then levR s t
      else 1 + min (levR s (b :: t)) (min (levR (a :: s) t) (levR s t)) := by
  rw [levR]

/-- The tail `dp[i][j0+1..n]` of a DP row for the (reversed) prefix `x`, where
`rq` is the reversal of the first `j0` characters of `str2` and the remaining
characters are `bs`. -/
def curSpec (x : List Char) : List Char → List Char → List Nat
  | _, [] => []
  | rq, b :: bs => levR x (b :: rq) :: curSpec x (b :: rq) bs

theorem levRowGo_spec (a : Char) (rp : List Char) :
    ∀ (bs rq : List Char),
      levRowGo a bs (curSpec rp rq bs) (levR rp rq) (levR (a :: rp) rq) =
        curSpec (a :: rp) rq bs := by
  intro bs
  induction bs with
  | nil => intro rq; simp [levRowGo, curSpec]
  | cons b bs ih =>
    intro rq
    simp only [curSpec, levRowGo]
    rw [← levR_cons_cons a b rp rq]
    rw [ih (b :: rq)]

theorem levRow_spec (a : Char) (rp t : List Char) :
    levRow a t (levR rp [] :: curSpec rp [] t) (rp.length + 1) =
      levR (a :: rp) [] :: curSpec (a :: rp) [] t := by
  unfold levRow
  simp only [List.tail_cons, List.headD_cons]
  have h1 : rp.length + 1 = levR (a :: rp) [] := by
    rw [levR_nil_right]; simp
  rw [h1]
  rw [levRowGo_spec a rp t []]

theorem rows_fold (t : List Char) :
    ∀ (s' rp : List Char),
      (List.enumFrom rp.length s').foldl
          (fun prev p => levRow p.2 t prev (p.1 + 1))
          (levR rp [] :: curSpec rp [] t) =
        levR (s'.reverse ++ rp) [] :: curSpec (s'.reverse ++ rp) [] t := by
  intro s'
  induction s' with
  | nil => intro rp; simp
  | cons a s' ih =>
    intro rp
    simp only [List.enumFrom, List.foldl_cons]
    rw [levRow_spec a rp t]
    have := ih (a :: rp)
    simp only [List.length_cons] at this
    rw [this]
    simp

theorem curSpec_nil_left : ∀ (bs rq : List Char),
    curSpec [] rq bs = List.range' (rq.length + 1) bs.length := by
  intro bs
  induction bs with
  | nil => intro rq; simp [curSpec]
  | cons b bs ih =>
    intro rq
    have := ih (b :: rq)
    simp only [curSpec, levR_nil_left, List.length_cons, List.range'_succ] at this ⊢
    rw [this]

theorem curSpec_getLastD (x : List Char) :
    ∀ (bs rq : List Char) (x0 : Nat), x0 = levR x rq →
      (x0 :: curSpec x rq bs).getLastD 0 = levR x (bs.reverse ++ rq) := by
  intro bs
  induction bs with
  | nil => intro rq x0 h; simpa [curSpec] using h
  | cons b bs ih =>
    intro rq x0 h
    simp only [curSpec, List.getLastD_cons]
    have := ih (b :: rq) (levR x (b :: rq)) rfl
    simp only [List.getLastD_cons] at this ⊢
    rw [this]
    simp

/-- The source's DP table computes `levR` of the reversed strings. -/
theorem levenshteinDistance_eq_levR (s t : List Char) :
    levenshteinDistance s t = levR s.reverse t.reverse := by
  unfold levenshteinDistance
  have e0 : List.range (t.length + 1) = levR [] [] :: curSpec [] [] t := by
    rw [curSpec_nil_left t []]
    rw [List.range_eq_range']
    rw [List.range'_succ]
    simp [levR]
  rw [e0]
  have e1 : s.enum = List.enumFrom (([] : List Char)).length s := by simp [List.enum]
  rw [e1, rows_fold t s []]
  have e2 := curSpec_getLastD (s.reverse ++ []) t [] (levR (s.reverse ++ []) []) rfl
  simp only [List.append_nil] at e2 ⊢
  rw [e2]

theorem levR_symm_aux : ∀ (n : Nat) (s t : List Char),
    s.length + t.length ≤ n → levR s t = levR t s := by
  intro n
  induction n with
  | zero =>
    intro s t h
    cases s <;> cases t <;> simp_all
  | succ n ih =>
    intro s t h
    cases s with
    | nil => rw [levR_nil_left, levR_nil_right]
    | cons a s =>
      cases t with
      | nil => rw [levR_nil_left, levR_nil_right]
      | cons b t =>
        rw [levR_cons_cons, levR_cons_cons]
        simp only [List.length_cons] at h
        by_cases hab : a = b
        · rw [if_pos hab, if_pos hab.symm]
          exact ih s t (by omega)
        · rw [if_neg hab, if_neg (fun hh => hab hh.symm)]
          rw [ih s (b :: t) (by simp; omega), ih (a :: s) t (by simp; omega),
            ih s t (by omega)]
          omega

theorem levR_symm (s t : List Char) : levR s t = levR t s :=
  levR_symm_aux (s.length + t.length) s t le_rfl

theorem levR_self (s : List Char) : levR s s = 0 := by
  induction s with
  | nil => simp [levR]
  | cons a s ih => rw [levR_cons_cons, if_pos rfl, ih]

theorem levR_eq_zero_aux : ∀ (n : Nat) (s t : List Char),
    s.length + t.length ≤ n → levR s t = 0 → s = t := by
  intro n
  induction n with
  | zero =>
    intro s t h _
    cases s <;> cases t <;> simp_all
  | succ n ih =>
    intro s t h h0
    cases s with
    | nil => rw [levR_nil_left] at h0; simpa using (List.length_eq_zero.mp h0).symm
    | cons a s =>
      cases t with
      | nil => rw [levR_nil_right] at h0; simp at h0
      | cons b t =>
        rw [levR_cons_cons] at h0
        simp only [List.length_cons] at h
        by_cases hab : a = b
        · rw [if_pos hab] at h0
          rw [hab, ih s t (by omega) h0]
        · rw [if_neg hab] at h0; omega

theorem levR_eq_zero_iff (s t : List Char) : levR s t = 0 ↔ s = t := by
  constructor
  · exact levR_eq_zero_aux (s.length + t.length) s t le_rfl
  · intro h; rw [h]; exact levR_self t

/-- Prepending a character to the first argument changes the distance by at
most one, in both directions (joint induction, the two halves feed each other
through symmetry). -/
theorem levR_step_aux : ∀ (n : Nat) (a : Char) (s t : List Char),
    s.length + t.length ≤ n →
      levR (a :: s) t ≤ levR s t + 1 ∧ levR s t ≤ levR (a :: s) t + 1 := by
  intro n
  induction n with
  | zero =>
    intro a s t h
    cases s <;> cases t <;> simp_all [levR_nil_right, levR_nil_left, levR]
  | succ n ih =>
    intro a s t h
    cases t with
    | nil =>
      rw [levR_nil_right, levR_nil_right]
      simp only [List.length_cons]
      omega
    | cons b t =>
      simp only [List.length_cons] at h
      constructor
      · rw [levR_cons_cons]
        by_cases hab : a = b
        · rw [if_pos hab]
          have hd := (ih b t s (by omega)).2
          rw [levR_symm t s, levR_symm (b :: t) s] at hd
          exact hd
        · rw [if_neg hab]
          omega
      · rw [levR_cons_cons]
        by_cases hab : a = b
        · rw [if_pos hab]
          have hb := (ih b t s (by omega)).1
          rw [levR_symm (b :: t) s, levR_symm t s] at hb
          exact hb
        · rw [if_neg hab]
          have f1 : levR s (b :: t) ≤ levR s t + 1 := by
            have hb := (ih b t s (by omega)).1
            rw [levR_symm (b :: t) s, levR_symm t s] at hb
            exact hb
          have f2 : levR s t ≤ levR (a :: s) t + 1 := (ih a s t (by omega)).2
          omega

theorem levR_cons_le (a : Char) (s t : List Char) :
    levR (a :: s) t ≤ levR s t + 1 :=
  (levR_step_aux (s.length + t.length) a s t le_rfl).1

theorem levR_le_cons (a : Char) (s t : List Char) :
    levR s t ≤ levR (a :: s) t + 1 :=
  (levR_step_aux (s.length + t.length) a s t le_rfl).2

theorem levR_le_cons_snd' (b : Char) (s t : List Char) :
    levR s t ≤ levR s (b :: t) + 1 := by
  rw [levR_symm s t, levR_symm s (b :: t)]
  exact levR_le_cons b t s

/-- Edit scripts: `Ed s t n` means `t` is reachable from `s` with `n` unit
edits (copy is free). -/
inductive Ed : List Char → List Char → Nat → Prop
  | nil : Ed [] [] 0
  | copy (a : Char) (s t : List Char) (n : Nat) : Ed s t n → Ed (a :: s) (a :: t) n
  | swap (a b : Char) (s t : List Char) (n : Nat) : Ed s t n → Ed (a :: s) (b :: t) (n + 1)
  | del (a : Char) (s t : List Char) (n : Nat) : Ed s t n → Ed (a :: s) t (n + 1)
  | ins (b : Char) (s t : List Char) (n : Nat) : Ed s t n → Ed s (b :: t) (n + 1)

theorem ed_nil_left : ∀ (t : List Char), Ed [] t t.length := by
  intro t
  induction t with
  | nil => exact Ed.nil
  | cons b t ih => exact Ed.ins b _ _ _ ih

theorem ed_nil_right : ∀ (s : List Char), Ed s [] s.length := by
  intro s
  induction s with
  | nil => exact Ed.nil
  | cons a s ih => exact Ed.del a _ _ _ ih

/-- An optimal edit script exists. -/
theorem ed_levR_aux : ∀ (n : Nat) (s t : List Char),
    s.length + t.length ≤ n → Ed s t (levR s t) := by
  intro n
  induction n with
  | zero =>
    intro s t h
    cases s <;> cases t <;> simp_all [levR]
    exact Ed.nil
  | succ n ih =>
    intro s t h
    cases s with
    | nil => rw [levR_nil_left]; exact ed_nil_left t
    | cons a s =>
      cases t with
      | nil => rw [levR_nil_right]; exact ed_nil_right (a :: s)
      | cons b t =>
        rw [levR_cons_cons]
        simp only [List.length_cons] at h
        by_cases hab : a = b
        · rw [if_pos hab, hab]
          exact Ed.copy b _ _ _ (ih s t (by omega))
        · rw [if_neg hab]
          have hm : min (levR s (b :: t)) (min (levR (a :: s) t) (levR s t)) =
                levR s (b :: t) ∨
              min (levR s (b :: t)) (min (levR (a :: s) t) (levR s t)) =
                levR (a :: s) t ∨
              min (levR s (b :: t)) (min (levR (a :: s) t) (levR s t)) =
                levR s t := by omega
          rcases hm with hm | hm | hm <;> rw [hm, Nat.add_comm 1 _]
          · exact Ed.del a _ _ _ (ih s (b :: t) (by simp; omega))
          · exact Ed.ins b _ _ _ (ih (a :: s) t (by simp; omega))
          · exact Ed.swap a b _ _ _ (ih s t (by omega))

theorem ed_levR (s t : List Char) : Ed s t (levR s t) :=
  ed_levR_aux (s.length + t.length) s t le_rfl

/-- Any edit script bounds the distance from above. -/
theorem levR_le_ed {s t : List Char} {n : Nat} (h : Ed s t n) : levR s t ≤ n := by
  induction h with
  | nil => simp [levR]
  | copy a s' t' n' h ih => rw [levR_cons_cons, if_pos rfl]; exact ih
  | swap a b s' t' n' h ih =>
    rw [levR_cons_cons]
    by_cases hab : a = b
    · rw [if_pos hab]; omega
    · rw [if_neg hab]; omega
  | del a s' t' n' h ih =>
    cases t' with
    | nil =>
      rw [levR_nil_right]
      rw [levR_nil_right] at ih
      simp only [List.length_cons]
      omega
    | cons b t' =>
      rw [levR_cons_cons]
      by_cases hab : a = b
      · rw [if_pos hab]
        have := levR_le_cons_snd' b s' t'
        omega
      · rw [if_neg hab]; omega
  | ins b s' t' n' h ih =>
    cases s' with
    | nil =>
      rw [levR_nil_left]
      rw [levR_nil_left] at ih
      simp only [List.length_cons]
      omega
    | cons a s' =>
      rw [levR_cons_cons]
      by_cases hab : a = b
      · rw [if_pos hab]
        have := levR_le_cons a s' t'
        omega
      · rw [if_neg hab]; omega

/-- Edit scripts compose with additive cost. -/
theorem ed_comp_aux : ∀ (n : Nat) (s t u : List Char) (m k : Nat),
    s.length + t.length + u.length ≤ n → Ed s t m → Ed t u k →
      ∃ r, r ≤ m + k ∧ Ed s u r := by
  intro n
  induction n with
  | zero =>
    intro s t u m k h h1 h2
    have hs : s = [] := by cases s <;> simp_all
    have ht : t = [] := by cases t <;> simp_all
    have hu : u = [] := by cases u <;> simp_all
    subst hs; subst ht; subst hu
    exact ⟨0, Nat.zero_le _, Ed.nil⟩
  | succ n ih =>
    intro s t u m k h h1 h2
    cases h1
    case nil =>
      exact ⟨k, by omega, h2⟩
    case copy =>
      rename_i a s' t' h1'
      generalize hT : a :: t' = T at h2
      cases h2
      case nil => exact absurd hT (by simp)
      case copy =>
        rename_i c tc uc h2'
        injection hT with hx hy
        subst hx; subst hy
        obtain ⟨r, hr, hed⟩ := ih s' t' uc m k
          (by simp only [List.length_cons] at h; omega) h1' h2'
        exact ⟨r, by omega, Ed.copy _ _ _ _ hed⟩
      case swap =>
        rename_i c d tc uc kc h2'
        injection hT with hx hy
        subst hx; subst hy
        obtain ⟨r, hr, hed⟩ := ih s' t' uc m kc
          (by simp only [List.length_cons] at h; omega) h1' h2'
        exact ⟨r + 1, by omega, Ed.swap _ _ _ _ _ hed⟩
      case del =>
        rename_i c tc kc h2'
        injection hT with hx hy
        subst hx; subst hy
        obtain ⟨r, hr, hed⟩ := ih s' t' u m kc
          (by simp only [List.length_cons] at h; omega) h1' h2'
        exact ⟨r + 1, by omega, Ed.del _ _ _ _ hed⟩
      case ins =>
        rename_i d uc kc h2'
        subst hT
        obtain ⟨r, hr, hed⟩ := ih (a :: s') (a :: t') uc m kc
          (by simp only [List.length_cons] at h ⊢; omega) (Ed.copy _ _ _ _ h1') h2'
        exact ⟨r + 1, by omega, Ed.ins _ _ _ _ hed⟩
    case swap =>
      rename_i a b s' t' m' h1'
      generalize hT : b :: t' = T at h2
      cases h2
      case nil => exact absurd hT (by simp)
      case copy =>
        rename_i c tc uc h2'
        injection hT with hx hy
        subst hx; subst hy
        obtain ⟨r, hr, hed⟩ := ih s' t' uc m' k
          (by simp only [List.length_cons] at h; omega) h1' h2'
        exact ⟨r + 1, by omega, Ed.swap _ _ _ _ _ hed⟩
      case swap =>
        rename_i c d tc uc kc h2'
        injection hT with hx hy
        subst hx; subst hy
        obtain ⟨r, hr, hed⟩ := ih s' t' uc m' kc
          (by simp only [List.length_cons] at h; omega) h1' h2'
        exact ⟨r + 1, by omega, Ed.swap _ _ _ _ _ hed⟩
      case del =>
        rename_i c tc kc h2'
        injection hT with hx hy
        subst hx; subst hy
        obtain ⟨r, hr, hed⟩ := ih s' t' u m' kc
          (by simp only [List.length_cons] at h; omega) h1' h2'
        exact ⟨r + 1, by omega, Ed.del _ _ _ _ hed⟩
      case ins =>
        rename_i d uc kc h2'
        subst hT
        obtain ⟨r, hr, hed⟩ := ih (a :: s') (b :: t') uc (m' + 1) kc
          (by simp only [List.length_cons] at h ⊢; omega) (Ed.swap _ _ _ _ _ h1') h2'
        exact ⟨r + 1, by omega, Ed.ins _ _ _ _ hed⟩
    case del =>
      rename_i a s' m' h1'
      obtain ⟨r, hr, hed⟩ := ih s' t u m' k
        (by simp only [List.length_cons] at h; omega) h1' h2
      exact ⟨r + 1, by omega, Ed.del _ _ _ _ hed⟩
    case ins =>
      rename_i b t' m' h1'
      generalize hT : b :: t' = T at h2
      cases h2
      case nil => exact absurd hT (by simp)
      case copy =>
        rename_i c tc uc h2'
        injection hT with hx hy
        subst hx; subst hy
        obtain ⟨r, hr, hed⟩ := ih s t' uc m' k
          (by simp only [List.length_cons] at h; omega) h1' h2'
        exact ⟨r + 1, by omega, Ed.ins _ _ _ _ hed⟩
      case swap =>
        rename_i c d tc uc kc h2'
        injection hT with hx hy
        subst hx; subst hy
        obtain ⟨r, hr, hed⟩ := ih s t' uc m' kc
          (by simp only [List.length_cons] at h; omega) h1' h2'
        exact ⟨r + 1, by omega, Ed.ins _ _ _ _ hed⟩
      case del =>
        rename_i c tc kc h2'
        injection hT with hx hy
        subst hx; subst hy
        obtain ⟨r, hr, hed⟩ := ih s t' u m' kc
          (by simp only [List.length_cons] at h; omega) h1' h2'
        exact ⟨r, by omega, hed⟩
      case ins =>
        rename_i d uc kc h2'
        subst hT
        obtain ⟨r, hr, hed⟩ := ih s (b :: t') uc (m' + 1) kc
          (by simp only [List.length_cons] at h ⊢; omega) (Ed.ins _ _ _ _ h1') h2'
        exact ⟨r + 1, by omega, Ed.ins _ _ _ _ hed⟩

/-- Triangle inequality for `levR`. -/
theorem levR_triangle (s t u : List Char) : levR s u ≤ levR s t + levR t u := by
  obtain ⟨r, hr, hed⟩ := ed_comp_aux (s.length + t.length + u.length) s t u
    (levR s t) (levR t u) le_rfl (ed_levR s t) (ed_levR t u)
  exact le_trans (levR_le_ed hed) hr

/-! ## Filesystem model and `processPdfFile` (source lines 388–430, 458–499)

The filesystem is a finite list of `(path, content-id)` pairs; `fs.rename`
moves the content at the source path to the target path, destroying whatever
was stored at the target (POSIX rename overwrites).  A directory exists in
the model exactly when some file lies below it (no empty directories), and a
rename whose source is missing or whose target directory does not exist
fails — the thrown error is caught by `processPdfFile`'s `try`/`catch` and
the file is left untouched.  The worker pool is modelled twice: a
non-overlapping schedule (`processFilesSeq`) and an overlapping two-file
schedule (`processTwoRaced`) in which both `fs.pathExists` checks run before
either rename. -/

/-- `path.basename` (the suffix after the last `/`). -/
def baseName (p : List Char) : List Char :=
  (p.reverse.takeWhile (· ≠ '/')).reverse

/-- Helper for `dirName`: `some q` when the path contains a `/`, where `q` is
the prefix before the last `/`. -/
def dirNameAux : List Char → Option (List Char)
  | [] => none
  | c :: cs =>
    match dirNameAux cs with
    | some q => some (c :: q)
    | none => if c = '/' then some [] else none

/-- `path.dirname`. -/
def dirName (p : List Char) : List Char :=
  match dirNameAux p with
  | none => ['.']
  | some [] => ['/']
  | some q => q

/-- Splitting on `/` (the separator scan inside `path.posix.normalize`):
all `/`-separated segments, empty ones included; `acc` holds the current
segment's characters in reverse. -/
def splitSlashGo (acc : List Char) : List Char → List (List Char)
  | [] => [acc.reverse]
  | c :: cs =>
    if c = '/' then acc.reverse :: splitSlashGo [] cs else splitSlashGo (c :: acc) cs

def splitSlash (cs : List Char) : List (List Char) := splitSlashGo [] cs

/-- A path segment that survives normalization unchanged: nonempty and
neither `.` nor `..`. -/
def goodSeg (s : List Char) : Bool :=
  !s.isEmpty && !(s = ['.']) && !(s = ['.', '.'])

/-- A well-formed absolute file path as `path.join` emits them (and
`getAllPdfFiles` builds every path it returns with `path.join`): a leading
`/` and every `/`-separated segment nonempty, none equal to `.` or `..`. -/
def cleanPath (p : List Char) : Bool :=
  p.head? = some '/' && (splitSlash p.tail).all goodSeg

/-- Segment resolution of `path.posix.normalize` (Node's `normalizeString`):
empty and `.` segments are dropped; `..` pops the previous segment, and at
the top is kept on relative paths (`allowAboveRoot`) and dropped on absolute
ones.  `stack` holds the emitted segments in reverse. -/
def normSegs (allowAboveRoot : Bool) : List (List Char) → List (List Char) → List (List Char)
  | stack, [] => stack.reverse
  | stack, s :: ss =>
    if s.isEmpty || s = ['.'] then normSegs allowAboveRoot stack ss
    else if s = ['.', '.'] then
      match stack with
      | t :: rest =>
        if t = ['.', '.'] then
          if allowAboveRoot then normSegs allowAboveRoot (s :: t :: rest) ss
          else normSegs allowAboveRoot (t :: rest) ss
        else normSegs allowAboveRoot rest ss
      | [] =>
        if allowAboveRoot then normSegs allowAboveRoot [s] ss
        else normSegs allowAboveRoot [] ss
    else normSegs allowAboveRoot (s :: stack) ss

/-- Joining segments back with `/`. -/
def joinSegs : List (List Char) → List Char
  | [] => []
  | [s] => s
  | s :: ss => s ++ '/' :: joinSegs ss

def isAbsPath (p : List Char) : Bool := p.head? = some '/'

def hasTrailSlash (p : List Char) : Bool := p.getLast? = some '/'

/-- The resolved segment core of `path.posix.normalize`. -/
def normCore (p : List Char) : List Char :=
  joinSegs (normSegs (!isAbsPath p) [] (splitSlash p))

/-- `path.posix.normalize`: collapses `//`, resolves `.` and `..`, keeps a
leading `/` (absolute) and a trailing `/`. -/
def normalizePath (p : List Char) : List Char :=
  if p.isEmpty then ['.']
  else if (normCore p).isEmpty then
    (if isAbsPath p then ['/']
     else if hasTrailSlash p then '.' :: ['/'] else ['.'])
  else
    (if isAbsPath p then '/' :: normCore p else normCore p) ++
      (if hasTrailSlash p then ['/'] else [])

/-- `path.join(dir, name)`: the non-empty parts joined with `/`, then
normalized. -/
def joinPath (d n : List Char) : List Char :=
  if d.isEmpty && n.isEmpty then ['.']
  else if d.isEmpty then normalizePath n
  else if n.isEmpty then normalizePath d
  else normalizePath (d ++ '/' :: n)

structure FS where
  files : List (List Char × Nat)
deriving DecidableEq, Repr

/-- `fs.pathExists`. -/
def pathExists (fs : FS) (p : List Char) : Bool := fs.files.any (fun e => e.1 = p)

/-- The prefix every path below directory `d` starts with (`d ++ "/"`, with
no doubling when `d` already ends in the separator, e.g. the root `/`). -/
def dirPrefix (d : List Char) : List Char :=
  if d.getLast? = some '/' then d else d ++ ['/']

/-- A directory exists when some file lies below it.  The model carries no
empty directories, so this is exactly when `fs.rename` into `d` can
succeed. -/
def dirExistsFS (fs : FS) (d : List Char) : Bool :=
  fs.files.any (fun e => isPrefixSeq (dirPrefix d) e.1)

/-- The effect of a *successful* `fs.rename src dst`: the content at `src`
moves to `dst`, and a pre-existing entry at `dst` is lost (POSIX rename
overwrites).  Callers apply it only when the syscall can succeed — the
source exists and the target's directory exists — and model the failure
(`ENOENT`, caught by the source's `catch`) as a no-op. -/
def renameFS (fs : FS) (src dst : List Char) : FS :=
  ⟨fs.files.filterMap (fun e =>
    if e.1 = src then some (dst, e.2)
    else if e.1 = dst then none
    else some e)⟩

/-- Per-file result of `processPdfFile` (the source's early `return`s, the
final rename, and `renameFailed` for an `fs.rename` error — missing source
or target directory — swallowed by the `catch` at line 427). -/
inductive Outcome
  | noTitle
  | nullName
  | sameName
  | collision
  | renameFailed
  | renamed (src dst : List Char)
deriving DecidableEq, Repr

def Outcome.isRename : Outcome → Bool
  | renamed _ _ => true
  | _ => false

/-- The merge of filename metadata with extracted PDF metadata
(source lines 400–405): `title`/`year` prefer the filename value (JS `||`),
`author` prefers the extracted value. -/
def mergeMeta (fm pm : Meta) : Meta :=
  ⟨if strTruthy fm.title then fm.title else pm.title,
   if strTruthy pm.author then pm.author else fm.author,
   if yearTruthy fm.year then fm.year else pm.year⟩

/-- Source lines 396–407: external extraction is consulted only when the
filename-derived `author` is falsy; `extract = none` models an extraction
failure (the source's `catch` returns `null`, and then no merge happens). -/
def resolvedMeta (extract : Option Meta) (fm : Meta) : Meta :=
  if !strTruthy fm.author then
    match extract with
    | some pm => mergeMeta fm pm
    | none => fm
  else fm

/-- The target path `processPdfFile` computes for a file (when a new filename
is produced at all). -/
def computedTarget (extract : Option Meta) (filePath : List Char) : Option (List Char) :=
  (generateNewFilename (resolvedMeta extract (parseFilename (baseName filePath)))).map
    (joinPath (dirName filePath))

/-- `processPdfFile` (source lines 388–430) over the filesystem model; the
external metadata extractor is passed as an oracle. -/
def processPdfFile (extract : Option Meta) (fs : FS) (filePath : List Char) :
    FS × Outcome :=
  let filename := baseName filePath
  let metadata := resolvedMeta extract (parseFilename filename)
  if !strTruthy metadata.title then (fs, .noTitle)
  else
    match generateNewFilename metadata with
    | none => (fs, .nullName)
    | some newFilename =>
      if newFilename = filename then (fs, .sameName)
      else
        let newPath := joinPath (dirName filePath) newFilename
        if pathExists fs newPath && newPath ≠ filePath then (fs, .collision)
        else if pathExists fs filePath && dirExistsFS fs (dirName newPath) then
          (renameFS fs filePath newPath, .renamed filePath newPath)
        else (fs, .renameFailed)

/-- The check phase of `processPdfFile` (source lines 391–423, everything up
to and including the `await fs.pathExists`): `some target` when the call
will go on to `await fs.rename`, `none` when it returns early. -/
def pdfCheck (extract : Option Meta) (fs : FS) (filePath : List Char) :
    Option (List Char) :=
  if !strTruthy (resolvedMeta extract (parseFilename (baseName filePath))).title then
    none
  else
    match generateNewFilename (resolvedMeta extract (parseFilename (baseName filePath))) with
    | none => none
    | some newFilename =>
      if newFilename = baseName filePath then none
      else if pathExists fs (joinPath (dirName filePath) newFilename) &&
          joinPath (dirName filePath) newFilename ≠ filePath then none
      else some (joinPath (dirName filePath) newFilename)

/-- The rename phase (`await fs.rename`, source line 425): the syscall runs
against the filesystem *at apply time*; `false` means no rename happened
(early return, or an error caught at line 427). -/
def pdfApply (fs : FS) (filePath : List Char) : Option (List Char) → FS × Bool
  | none => (fs, false)
  | some dst =>
    if pathExists fs filePath && dirExistsFS fs (dirName dst) then
      (renameFS fs filePath dst, true)
    else (fs, false)

/-- Two files processed by the worker pool under the overlapping schedule
check₁ · check₂ · rename₁ · rename₂: both `fs.pathExists` collision checks
resolve against the same filesystem before either rename runs — an
interleaving the `await`s at source lines 421 and 425 permit whenever the
concurrency limit is at least 2 (the default is 2 × CPUs).  Returns the
final filesystem and whether each file performed its rename. -/
def processTwoRaced (e1 e2 : Option Meta) (fs : FS) (p1 p2 : List Char) :
    FS × Bool × Bool :=
  ((pdfApply (pdfApply fs p1 (pdfCheck e1 fs p1)).1 p2 (pdfCheck e2 fs p2)).1,
   (pdfApply fs p1 (pdfCheck e1 fs p1)).2,
   (pdfApply (pdfApply fs p1 (pdfCheck e1 fs p1)).1 p2 (pdfCheck e2 fs p2)).2)

/-- The worker pool (`processFiles`, source lines 458–487) under its
*non-overlapping* schedules: each file's processing completes before the
next starts.  The pool (`limit` ≥ 2 by default) also admits overlapping
schedules; `processTwoRaced` below models one. -/
def processFilesSeq (extract : List Char → Option Meta) (fs : FS) :
    List (List Char) → FS × List Outcome
  | [] => (fs, [])
  | p :: ps =>
    let r := processPdfFile (extract p) fs p
    let rest := processFilesSeq extract r.1 ps
    (rest.1, r.2 :: rest.2)

structure RunResult where
  exitCode : Nat
  fs : FS
  outcomes : List Outcome
deriving DecidableEq, Repr

/-- `main` (source lines 17–22 and 489–499).  `sourceEnv` is
`process.env.PDF_SOURCE_DIR` (`none` = unset); a falsy value triggers
`process.exit(1)` before anything is read.  `listing` is the result of
`getAllPdfFiles sourceDir`: `none` models a rejected promise (e.g. the
directory does not exist), which the final `.catch` handles by logging only,
so the Node process then terminates normally with exit code 0. -/
def mainRun (sourceEnv : Option (List Char)) (listing : Option (List (List Char)))
    (extract : List Char → Option Meta) (fs : FS) : RunResult :=
  match sourceEnv with
  | none => ⟨1, fs, []⟩
  | some d =>
    if d.isEmpty then ⟨1, fs, []⟩
    else
      match listing with
      | none => ⟨0, fs, []⟩
      | some files =>
        let r := processFilesSeq extract fs files
        ⟨0, r.1, r.2⟩

/-! ## Claim theorems -/

/-- C9: for all strings `a`, `b`, `c`, `levenshteinDistance` is a non-negative
integer, symmetric, zero exactly on equal strings, and satisfies the triangle
inequality. -/
theorem levenshteinDistance_algebra (a b c : List Char) :
    0 ≤ levenshteinDistance a b ∧
    levenshteinDistance a b = levenshteinDistance b a ∧
    (levenshteinDistance a b = 0 ↔ a = b) ∧
    levenshteinDistance a c ≤ levenshteinDistance a b + levenshteinDistance b c := by
  refine ⟨Nat.zero_le _, ?_, ?_, ?_⟩
  · rw [levenshteinDistance_eq_levR, levenshteinDistance_eq_levR]
    exact levR_symm _ _
  · rw [levenshteinDistance_eq_levR, levR_eq_zero_iff]
    exact List.reverse_inj
  · rw [levenshteinDistance_eq_levR, levenshteinDistance_eq_levR,
      levenshteinDistance_eq_levR]
    exact levR_triangle _ _ _

/-- C2 counterexample: on
`McGraw-Hill.Programming_Basics_-_John_R_Smith_(2019).pdf` the pipeline
produces `Programming Basics - John R., Smith [2019].pdf` — not the claimed
`Programming Basics - John R. Smith [2019].pdf` (the author grouping closes a
group before the capitalized word `Smith`, yielding two comma-joined
authors). -/
theorem c2_end_to_end_counterexample :
    generateNewFilename (parseFilename
        ("McGraw-Hill.Programming_Basics_-_John_R_Smith_(2019).pdf".data)) ≠
      some ("Programming Basics - John R. Smith [2019].pdf".data) := by decide

/-- C2 amended: the pipeline maps
`McGraw-Hill.Programming_Basics_-_John_R_Smith_(2019).pdf` to exactly
`Programming Basics - John R., Smith [2019].pdf`. -/
theorem c2_end_to_end_amended :
    generateNewFilename (parseFilename
        ("McGraw-Hill.Programming_Basics_-_John_R_Smith_(2019).pdf".data)) =
      some ("Programming Basics - John R., Smith [2019].pdf".data) := by decide

/-- C4 counterexample: the canonical name `Clean Code - Smith, J. [2019].pdf`,
whose author `Smith, J.` passes `isValidAuthorName`, is *not* a fixpoint of
the pipeline — it is rewritten to `Clean Code - Smith J. [2019].pdf`, and
`processPdfFile` attempts a rename. -/
theorem c4_idempotence_counterexample :
    isValidAuthorName ("Smith, J.".data) = true ∧
    generateNewFilename (parseFilename ("Clean Code - Smith, J. [2019].pdf".data)) =
      some ("Clean Code - Smith J. [2019].pdf".data) ∧
    generateNewFilename (parseFilename ("Clean Code - Smith, J. [2019].pdf".data)) ≠
      some ("Clean Code - Smith, J. [2019].pdf".data) ∧
    (processPdfFile none ⟨[(("/lib/Clean Code - Smith, J. [2019].pdf".data), 0)]⟩
        ("/lib/Clean Code - Smith, J. [2019].pdf".data)).2.isRename = true := by
  refine ⟨by decide, by decide, by decide, by decide⟩

/-- C4 amended: the pipeline is not idempotent on every canonical name with
a valid author (counterexample above), but it does fix particular canonical
names; the two proved here: `Clean Code - Smith J. [2019].pdf` is processed
to `sameName` (no rename attempted), and
`Programming Basics - John R., Smith [2019].pdf` is mapped to itself by the
generator. -/
theorem c4_idempotence_amended :
    processPdfFile none ⟨[(("/lib/Clean Code - Smith J. [2019].pdf".data), 0)]⟩
        ("/lib/Clean Code - Smith J. [2019].pdf".data) =
      (⟨[(("/lib/Clean Code - Smith J. [2019].pdf".data), 0)]⟩, Outcome.sameName) ∧
    generateNewFilename (parseFilename
        ("Programming Basics - John R., Smith [2019].pdf".data)) =
      some ("Programming Basics - John R., Smith [2019].pdf".data) := by
  refine ⟨by decide, by decide⟩

/-- C7: at the failing input `{title := "a<<<<b"}` the anomaly fallback of
`generateNewFilename` returns the *unsanitized* title: the output
`a<<<<b.pdf` still contains `<`. -/
theorem c7_fallback_unsanitized :
    generateNewFilename ⟨some ("a<<<<b".data), none, none⟩ =
      some ("a<<<<b.pdf".data) ∧
    '<' ∈ ("a<<<<b.pdf".data) := by
  refine ⟨by decide, by decide⟩

/-- A letter (Latin or Cyrillic) is not one of the punctuation/whitespace
characters stripped by `isValidAuthorName`. -/
theorem letter_not_sep (c : Char) (h : isLetterJS c = true) :
    (!(c = '.' || c = ',' || c = '-' || isSpaceJS c)) = true := by
  by_cases h1 : c = '.'
  · subst h1; exact absurd h (by decide)
  · by_cases h2 : c = ','
    · subst h2; exact absurd h (by decide)
    · by_cases h3 : c = '-'
      · subst h3; exact absurd h (by decide)
      · by_cases h4 : isSpaceJS c = true
        · exfalso
          simp only [isSpaceJS, Bool.or_eq_true, decide_eq_true_eq] at h4
          rcases h4 with ((((((rfl | rfl) | rfl) | rfl) | rfl) | rfl) | rfl) <;>
            exact absurd h (by decide)
        · simp [h1, h2, h3, h4]

/-- Any string whose stripped form has more than 100 characters is rejected
by `isValidAuthorName` (the length guard). -/
theorem isValidAuthorName_long (s : List Char)
    (h : 100 < (authorCleanText s).length) :
    isValidAuthorName s = false := by
  unfold isValidAuthorName
  split
  · rfl
  · split
    · rfl
    · split
      · rfl
      · split
        · rfl
        · split
          · rfl
          · rename_i hlen
            exfalso
            simp only [Bool.or_eq_true, decide_eq_true_eq] at hlen
            omega

/-- C6 amended: `isValidAuthorName` rejects `"aaaa"`, `"jross1"`, `"!!!@@@"`,
`"John, John"` and every string of 150 letters, and accepts `"Smith, J."`;
but contrary to the claim it also rejects `"J.K. Rowling"` and
`"А. Б. Иванов"` (their parts are split only on hyphen/comma, and a dotted
multi-initial part matches none of the name-shape alternatives). -/
theorem isValidAuthorName_vectors (s : List Char) :
    isValidAuthorName ("aaaa".data) = false ∧
    isValidAuthorName ("jross1".data) = false ∧
    isValidAuthorName ("!!!@@@".data) = false ∧
    isValidAuthorName ("John, John".data) = false ∧
    (s.length = 150 → (∀ c ∈ s, isLetterJS c = true) →
      isValidAuthorName s = false) ∧
    isValidAuthorName ("Smith, J.".data) = true ∧
    isValidAuthorName ("J.K. Rowling".data) = false ∧
    isValidAuthorName ("А. Б. Иванов".data) = false := by
  refine ⟨by decide, by decide, by decide, by decide, ?_, by decide, by decide, by decide⟩
  intro h150 hall
  have hclean : authorCleanText s = s :=
    List.filter_eq_self.mpr (fun a ha => letter_not_sep a (hall a ha))
  exact isValidAuthorName_long s (by rw [hclean]; omega)

set_option maxRecDepth 10000 in
theorem isValidAuthorName_vectors_witness :
    isValidAuthorName
      ("AbAbAbAbAbAbAbAbAbAbAbAbAbAbAbAbAbAbAbAbAbAbAbAbAbAbAbAbAbAbAbAbAbAbAbAbAbAbAbAbAbAbAbAbAbAbAbAbAbAbAbAbAbAbAbAbAbAbAbAbAbAbAbAbAbAbAbAbAbAbAbAbAbAbAb".data) = false :=
  (isValidAuthorName_vectors
    ("AbAbAbAbAbAbAbAbAbAbAbAbAbAbAbAbAbAbAbAbAbAbAbAbAbAbAbAbAbAbAbAbAbAbAbAbAbAbAbAbAbAbAbAbAbAbAbAbAbAbAbAbAbAbAbAbAbAbAbAbAbAbAbAbAbAbAbAbAbAbAbAbAbAbAb".data)).2.2.2.2.1
    (by decide) (by decide)

/-- C6 counterexample: `isValidAuthorName "J.K. Rowling"` is `false`, while
the claim asserts it is `true`. -/
theorem c6_accepts_counterexample :
    isValidAuthorName ("J.K. Rowling".data) = false := by decide

/-- C3 counterexample: in `John K Smith - Doe J.pdf` *both* sides of the dash
split satisfy `isLikelyAuthor`; the claim says the shorter side (`Doe J`)
becomes the author, but the code prefers the *first* side regardless of
length. -/
theorem c3_shorter_side_counterexample :
    parseFilename ("John K Smith - Doe J.pdf".data) =
      ⟨some ("Doe J".data), some ("John K Smith".data), none⟩ ∧
    isLikelyAuthor ("John K Smith".data) = true ∧
    isLikelyAuthor ("Doe J".data) = true ∧
    ("Doe J".data).length < ("John K Smith".data).length := by
  refine ⟨by decide, by decide, by decide, by decide⟩

/-- C3 amended: `parseFilename`'s two-part decision (`decideSplit`): if exactly
one (trimmed) side satisfies `isLikelyAuthor` that side is the author; if
*neither* qualifies the shorter side (the first on ties) is the author; if
*both* qualify the **first** side is the author regardless of length. -/
theorem decideSplit_rule (f s : List Char) (y : Option Nat) :
    (isLikelyAuthor (trimJS f) = true →
      decideSplit f s y = ⟨some (trimJS s), some (trimJS f), y⟩) ∧
    (isLikelyAuthor (trimJS f) = false → isLikelyAuthor (trimJS s) = true →
      decideSplit f s y = ⟨some (trimJS f), some (trimJS s), y⟩) ∧
    (isLikelyAuthor (trimJS f) = false → isLikelyAuthor (trimJS s) = false →
      ((trimJS f).length ≤ (trimJS s).length →
        decideSplit f s y = ⟨some (trimJS s), some (trimJS f), y⟩) ∧
      (¬(trimJS f).length ≤ (trimJS s).length →
        decideSplit f s y = ⟨some (trimJS f), some (trimJS s), y⟩)) := by
  refine ⟨fun h1 => ?_, fun h1 h2 => ?_,
    fun h1 h2 => ⟨fun h3 => ?_, fun h3 => ?_⟩⟩
  · simp [decideSplit, h1]
  · simp [decideSplit, h1, h2]
  · simp [decideSplit, h1, h2, h3]
  · simp [decideSplit, h1, h2, h3]

theorem decideSplit_rule_witness :
    decideSplit ("Smith J".data) ("Clean Code".data) none =
      ⟨some ("Clean Code".data), some ("Smith J".data), none⟩ :=
  (decideSplit_rule ("Smith J".data) ("Clean Code".data) none).1 (by decide)

/-- C5: external metadata extraction is observationally irrelevant when the
filename yields an author, and when it does not, the merged record takes
`title`/`year` from the filename with the external value as fallback and
`author` from the external value with the filename value as fallback. -/
theorem metadata_resolution (e1 e2 : Option Meta) (fm pm : Meta) (fs : FS)
    (p : List Char) :
    (strTruthy (parseFilename (baseName p)).author = true →
      processPdfFile e1 fs p = processPdfFile e2 fs p) ∧
    (strTruthy fm.author = false → resolvedMeta (some pm) fm = mergeMeta fm pm) ∧
    (strTruthy fm.author = true → ∀ e, resolvedMeta e fm = fm) ∧
    (strTruthy fm.title = true → (mergeMeta fm pm).title = fm.title) ∧
    (strTruthy fm.title = false → (mergeMeta fm pm).title = pm.title) ∧
    (strTruthy pm.author = true → (mergeMeta fm pm).author = pm.author) ∧
    (strTruthy pm.author = false → (mergeMeta fm pm).author = fm.author) ∧
    (yearTruthy fm.year = true → (mergeMeta fm pm).year = fm.year) ∧
    (yearTruthy fm.year = false → (mergeMeta fm pm).year = pm.year) := by
  refine ⟨fun h => ?_, fun h => ?_, fun h e => ?_, fun h => ?_, fun h => ?_,
    fun h => ?_, fun h => ?_, fun h => ?_, fun h => ?_⟩
  · have hr : ∀ e, resolvedMeta e (parseFilename (baseName p)) =
        parseFilename (baseName p) := by
      intro e; cases e <;> simp [resolvedMeta, h]
    simp only [processPdfFile]
    rw [hr e1, hr e2]
  · simp [resolvedMeta, h]
  · cases e <;> simp [resolvedMeta, h]
  · simp [mergeMeta, h]
  · simp [mergeMeta, h]
  · simp [mergeMeta, h]
  · simp [mergeMeta, h]
  · simp [mergeMeta, h]
  · simp [mergeMeta, h]

theorem metadata_resolution_witness :
    processPdfFile none ⟨[]⟩ ("/d/Clean Code - Smith J. [2019].pdf".data) =
      processPdfFile (some ⟨some ("X".data), some ("Y".data), some 1999⟩) ⟨[]⟩
        ("/d/Clean Code - Smith J. [2019].pdf".data) ∧
    resolvedMeta (some ⟨some ("X".data), some ("Y".data), some 1999⟩)
        ⟨some ("T".data), none, none⟩ =
      mergeMeta ⟨some ("T".data), none, none⟩
        ⟨some ("X".data), some ("Y".data), some 1999⟩ ∧
    (mergeMeta ⟨some ("T".data), none, none⟩
        ⟨some ("X".data), some ("Y".data), some 1999⟩).title = some ("T".data) ∧
    (mergeMeta ⟨some ("T".data), none, none⟩
        ⟨some ("X".data), some ("Y".data), some 1999⟩).author = some ("Y".data) ∧
    (mergeMeta ⟨some ("T".data), none, none⟩
        ⟨some ("X".data), some ("Y".data), some 1999⟩).year = some 1999 := by
  have h := metadata_resolution none
    (some ⟨some ("X".data), some ("Y".data), some 1999⟩)
    (⟨some ("T".data), none, none⟩)
    (⟨some ("X".data), some ("Y".data), some 1999⟩) ⟨[]⟩
    ("/d/Clean Code - Smith J. [2019].pdf".data)
  exact ⟨h.1 (by decide), h.2.1 (by decide), h.2.2.2.1 (by decide),
    h.2.2.2.2.2.1 (by decide), h.2.2.2.2.2.2.2.2 (by decide)⟩

/-- C8 counterexample: with `PDF_SOURCE_DIR` set to a directory whose listing
fails (the `getAllPdfFiles` promise rejects), the final `.catch` only logs:
the process ends with exit code 0, not the nonzero code the claim requires —
though indeed no file is touched. -/
theorem c8_invalid_dir_counterexample :
    (mainRun (some ("/nope".data)) none (fun _ => none)
        ⟨[(("/a.pdf".data), 0)]⟩).exitCode = 0 ∧
    (mainRun (some ("/nope".data)) none (fun _ => none)
        ⟨[(("/a.pdf".data), 0)]⟩).fs = ⟨[(("/a.pdf".data), 0)]⟩ := by
  refine ⟨by decide, by decide⟩

/-- C8 amended: an *unset or empty* `PDF_SOURCE_DIR` exits with code 1 before
touching anything; a set-but-invalid directory also touches nothing, but the
listing error is caught and merely logged, so the exit code is 0. -/
theorem c8_startup_amended (fs : FS) (ex : List Char → Option Meta)
    (L : Option (List (List Char))) (d : List Char) :
    mainRun none L ex fs = ⟨1, fs, []⟩ ∧
    mainRun (some []) L ex fs = ⟨1, fs, []⟩ ∧
    (mainRun (some d) none ex fs).fs = fs ∧
    (d.isEmpty = false → mainRun (some d) none ex fs = ⟨0, fs, []⟩) := by
  refine ⟨rfl, by simp [mainRun], ?_, fun h => ?_⟩
  · unfold mainRun
    cases hd : d.isEmpty <;> simp [hd]
  · simp [mainRun, h]

theorem c8_startup_amended_witness :
    mainRun (some ("/x".data)) none (fun _ => none) ⟨[]⟩ = ⟨0, ⟨[]⟩, []⟩ :=
  (c8_startup_amended ⟨[]⟩ (fun _ => none) none ("/x".data)).2.2.2 (by decide)

/-- Exhaustive description of `processPdfFile`'s behavior: either it leaves
the filesystem untouched with a non-rename outcome, or the guard allowed the
rename and the result is exactly the rename of source to computed target. -/
theorem processPdfFile_cases (e : Option Meta) (fs : FS) (p : List Char) :
    ((processPdfFile e fs p).1 = fs ∧ (processPdfFile e fs p).2.isRename = false) ∨
    (∃ nf, generateNewFilename (resolvedMeta e (parseFilename (baseName p))) = some nf ∧
      nf ≠ baseName p ∧
      ¬(pathExists fs (joinPath (dirName p) nf) = true ∧ joinPath (dirName p) nf ≠ p) ∧
      (pathExists fs p && dirExistsFS fs (dirName (joinPath (dirName p) nf))) = true ∧
      (processPdfFile e fs p).1 = renameFS fs p (joinPath (dirName p) nf) ∧
      (processPdfFile e fs p).2 = Outcome.renamed p (joinPath (dirName p) nf)) := by
  simp only [processPdfFile]
  split
  · exact Or.inl ⟨rfl, rfl⟩
  · split
    · exact Or.inl ⟨rfl, rfl⟩
    · rename_i nf heq
      split
      · exact Or.inl ⟨rfl, rfl⟩
      · rename_i hnf
        split
        · exact Or.inl ⟨rfl, rfl⟩
        · rename_i hguard
          split
          · rename_i hren
            refine Or.inr ⟨nf, heq, hnf, ?_, hren, rfl, rfl⟩
            intro ⟨hex, hne⟩
            exact hguard (by simp [hex, hne])
          · exact Or.inl ⟨rfl, rfl⟩

/-- If the computed target exists and differs from the source, the file is
left untouched and no rename happens. -/
theorem processPdfFile_skip (e : Option Meta) (fs : FS) (p t : List Char)
    (h1 : computedTarget e p = some t) (h2 : pathExists fs t = true) (h3 : t ≠ p) :
    (processPdfFile e fs p).1 = fs ∧ (processPdfFile e fs p).2.isRename = false := by
  rcases processPdfFile_cases e fs p with h | ⟨nf, hgen, hnf, hguard, hren, hfs, hout⟩
  · exact h
  · exfalso
    unfold computedTarget at h1
    rw [hgen] at h1
    simp only [Option.map_some'] at h1
    have ht : joinPath (dirName p) nf = t := by injection h1
    rw [ht] at hguard
    exact hguard ⟨h2, h3⟩

/-- A file at a different path than the processed one is never removed or
overwritten. -/
theorem processPdfFile_preserves (e : Option Meta) (fs : FS) (p : List Char)
    (q : List Char × Nat) (hq : q ∈ fs.files) (hne : q.1 ≠ p) :
    q ∈ (processPdfFile e fs p).1.files := by
  rcases processPdfFile_cases e fs p with ⟨h, _⟩ | ⟨nf, hgen, hnf, hguard, hren, hfs, hout⟩
  · rw [h]; exact hq
  · rw [hfs]
    simp only [renameFS, List.mem_filterMap]
    refine ⟨q, hq, ?_⟩
    rw [if_neg hne]
    by_cases hcase : joinPath (dirName p) nf = p
    · rw [if_neg (by rw [hcase]; exact hne)]
    · have hne2 : q.1 ≠ joinPath (dirName p) nf := by
        intro hcontra
        apply hguard
        refine ⟨?_, hcase⟩
        simp only [pathExists, List.any_eq_true]
        exact ⟨q, hq, by simp [hcontra]⟩
      rw [if_neg hne2]

/-- After renaming `src` (an existing file) to `dst`, the target exists. -/
theorem renameFS_target_exists (fs : FS) (src dst : List Char)
    (h : pathExists fs src = true) : pathExists (renameFS fs src dst) dst = true := by
  simp only [pathExists, List.any_eq_true, decide_eq_true_eq] at h ⊢
  obtain ⟨a, ha, hA⟩ := h
  refine ⟨(dst, a.2), ?_, rfl⟩
  simp only [renameFS, List.mem_filterMap]
  exact ⟨a, ha, by rw [if_pos hA]⟩

/-- Collision avoidance under *non-overlapping* scheduling.  (i) If the
computed target path exists and differs from the source, `processPdfFile`
leaves the filesystem unchanged and does not rename.  (ii) Within one call,
a file at any other path is never removed or overwritten.  (iii) When the
second file's processing starts only after the first completes, two distinct
files resolving to the same target rename at most the first: the second is
left untouched.  Under overlapping schedules (iii) fails — see
`c1_race_overwrite`. -/
theorem collision_safety (e e1 e2 : Option Meta) (fs : FS) (p t p1 p2 : List Char) :
    (computedTarget e p = some t → pathExists fs t = true → t ≠ p →
      (processPdfFile e fs p).1 = fs ∧
      (processPdfFile e fs p).2.isRename = false) ∧
    (∀ q, q ∈ fs.files → q.1 ≠ p → q ∈ (processPdfFile e fs p).1.files) ∧
    (pathExists fs p1 = true →
      (processPdfFile e1 fs p1).2 = Outcome.renamed p1 t →
      computedTarget e2 p2 = some t → t ≠ p2 →
      (processPdfFile e2 (processPdfFile e1 fs p1).1 p2).1 =
          (processPdfFile e1 fs p1).1 ∧
      (processPdfFile e2 (processPdfFile e1 fs p1).1 p2).2.isRename = false) := by
  refine ⟨fun h1 h2 h3 => processPdfFile_skip e fs p t h1 h2 h3,
    fun q hq hne => processPdfFile_preserves e fs p q hq hne,
    fun hp ho hct hne => ?_⟩
  rcases processPdfFile_cases e1 fs p1 with ⟨_, ho2⟩ | ⟨nf, hgen, hnf, hguard, hren, hfs, hout⟩
  · rw [ho] at ho2
    exact absurd ho2 (by simp [Outcome.isRename])
  · rw [hout] at ho
    have hJ : joinPath (dirName p1) nf = t := by
      injection ho with hx hy
    rw [hfs, hJ]
    exact processPdfFile_skip e2 (renameFS fs p1 t) p2 t hct
      (renameFS_target_exists fs p1 t hp) hne

/-! ## Character-provenance lemmas (for the frame property C10) -/

theorem collapseRunsF_mem (p : Char → Bool) (r : Char) :
    ∀ (fuel : Nat) (cs : List Char) (c : Char),
      c ∈ collapseRunsF p r fuel cs → c = r ∨ c ∈ cs := by
  intro fuel
  induction fuel with
  | zero => intro cs c h; simp [collapseRunsF] at h
  | succ fuel ih =>
    intro cs c h
    cases cs with
    | nil => simp [collapseRunsF] at h
    | cons a as =>
      simp only [collapseRunsF] at h
      split at h
      · rcases List.mem_cons.mp h with h | h
        · exact Or.inl h
        · rcases ih _ _ h with h | h
          · exact Or.inl h
          · exact Or.inr (List.mem_cons_of_mem a (List.dropWhile_subset p h))
      · rcases List.mem_cons.mp h with h | h
        · exact Or.inr (by simp [h])
        · rcases ih _ _ h with h | h
          · exact Or.inl h
          · exact Or.inr (List.mem_cons_of_mem a h)

theorem trimJS_subset (cs : List Char) : trimJS cs ⊆ cs := by
  intro c hc
  unfold trimJS at hc
  rw [List.mem_reverse] at hc
  have h1 := List.dropWhile_subset (p := isSpaceJS) hc
  rw [List.mem_reverse] at h1
  exact List.dropWhile_subset _ h1

theorem rtrimSpaces_subset (cs : List Char) : rtrimSpaces cs ⊆ cs := by
  intro c hc
  unfold rtrimSpaces at hc
  rw [List.mem_reverse] at hc
  have h1 := List.dropWhile_subset (p := isSpaceJS) hc
  rwa [List.mem_reverse] at h1

theorem cleanupText_mem (cs : List Char) (c : Char) (h : c ∈ cleanupText cs) :
    c = ' ' ∨ c ∈ cs := by
  unfold cleanupText at h
  split at h
  · exact Or.inr h
  · have h1 := trimJS_subset _ h
    rcases collapseRunsF_mem isSpaceJS ' ' _ _ c h1 with h2 | h2
    · exact Or.inl h2
    · rcases collapseRunsF_mem _ ' ' _ _ c h2 with h3 | h3
      · exact Or.inl h3
      · exact Or.inr h3

theorem parseNameOf_subset (cs : List Char) : parseNameOf cs ⊆ cs := by
  unfold parseNameOf
  split
  · exact fun c hc => hc
  · split
    · exact fun c hc => hc
    · exact List.take_subset _ _

theorem stripPublisher_subset (cs pub : List Char) : stripPublisher cs pub ⊆ cs := by
  unfold stripPublisher
  split
  · intro c hc
    have h1 := List.dropWhile_subset (p := isSpaceJS) hc
    have htail : ∀ (l : List Char), c ∈ l.tail → c ∈ l := by
      intro l hl
      cases l with
      | nil => simpa using hl
      | cons x xs => exact List.mem_cons_of_mem x hl
    have h2 : c ∈ cs.drop pub.length := by
      split at h1
      · exact htail _ h1
      · exact h1
    exact List.drop_subset _ _ h2
  · exact fun c hc => hc

theorem stripPublishers_subset (cs : List Char) : stripPublishers cs ⊆ cs := by
  unfold stripPublishers
  have hgen : ∀ (l : List (List Char)) (x : List Char), l.foldl stripPublisher x ⊆ x := by
    intro l
    induction l with
    | nil => intro x; exact fun c hc => hc
    | cons p ps ih =>
      intro x
      intro c hc
      exact stripPublisher_subset x p (ih (stripPublisher x p) hc)
  exact hgen publishers cs

theorem preYearName_mem (fn : List Char) (c : Char) (h : c ∈ preYearName fn) :
    c = ' ' ∨ c ∈ fn := by
  unfold preYearName at h
  have h1 := stripPublishers_subset _ h
  rcases cleanupText_mem _ _ h1 with h2 | h2
  · exact Or.inl h2
  · exact Or.inr (parseNameOf_subset fn h2)

theorem cleanNameOf_mem (fn : List Char) (c : Char) (h : c ∈ cleanNameOf fn) :
    c = ' ' ∨ c ∈ fn := by
  unfold cleanNameOf at h
  split at h
  · split at h
    · exact preYearName_mem fn c (List.take_subset _ _ (trimJS_subset _ h))
    · exact preYearName_mem fn c h
  · exact preYearName_mem fn c h

theorem firstSome_mem {α β : Type} (f : α → Option β) (l : List α) (y : β)
    (h : firstSome f l = some y) : ∃ x ∈ l, f x = some y := by
  induction l with
  | nil => simp [firstSome] at h
  | cons a as ih =>
    simp only [firstSome] at h
    split at h
    · rename_i b hb
      exact ⟨a, by simp, by rw [hb, h]⟩
    · obtain ⟨x, hx, hfx⟩ := ih h
      exact ⟨x, List.mem_cons_of_mem a hx, hfx⟩

theorem sepTail_sub (u2 : List Char) : ∀ (j : Nat) (g : List Char),
    sepTail u2 j = some g → g ⊆ u2 := by
  intro j
  induction j with
  | zero => intro g h; simp [sepTail] at h
  | succ j ih =>
    intro g h
    simp only [sepTail] at h
    split at h
    · injection h with h
      rw [← h]
      exact List.drop_subset _ _
    · exact ih g h

theorem sepMatch_sub (u g : List Char) (h : sepMatch u = some g) : g ⊆ u := by
  unfold sepMatch at h
  split at h
  · simp at h
  · split at h
    · rename_i u2 hu2
      split at h
      · simp at h
      · have hg := sepTail_sub u2 _ g h
        intro c hc
        have : c ∈ '-' :: u2 := List.mem_cons_of_mem '-' (hg hc)
        rw [← hu2] at this
        exact List.drop_subset _ _ this
    · simp at h

theorem endAuthorGroup_sub (b : Bool) (u2 g : List Char)
    (h : endAuthorGroup b u2 = some g) : g ⊆ u2 := by
  unfold endAuthorGroup at h
  split at h
  · simp at h
  · split at h
    · injection h with h
      rw [← h]
      exact List.drop_subset _ _
    · simp at h

theorem matchP1_sub (cs g1 g2 : List Char) (h : matchP1 cs = some (g1, g2)) :
    g1 ⊆ cs ∧ g2 ⊆ cs := by
  unfold matchP1 at h
  obtain ⟨k, _, hf⟩ := firstSome_mem _ _ _ h
  split at hf
  · rw [Option.map_eq_some'] at hf
    obtain ⟨g, hsep, hpair⟩ := hf
    injection hpair with hA hB
    constructor
    · rw [← hA]; exact List.take_subset _ _
    · rw [← hB]
      intro c hc
      exact List.drop_subset _ _ (sepMatch_sub _ _ hsep hc)
  · simp at hf

theorem matchP2_sub (cs g1 g2 : List Char) (h : matchP2 cs = some (g1, g2)) :
    g1 ⊆ cs ∧ g2 ⊆ cs := by
  unfold matchP2 at h
  obtain ⟨k, _, hf⟩ := firstSome_mem _ _ _ h
  split at hf
  · split at hf
    · simp at hf
    · split at hf
      · rename_i u2 hu2
        rw [Option.map_eq_some'] at hf
        obtain ⟨g, hend, hpair⟩ := hf
        injection hpair with hA hB
        refine ⟨by rw [← hA]; exact List.take_subset _ _, ?_⟩
        rw [← hB]
        intro c hc
        have h1 : c ∈ '-' :: u2 :=
          List.mem_cons_of_mem '-' (endAuthorGroup_sub _ _ _ hend hc)
        rw [← hu2] at h1
        exact List.drop_subset _ _ (List.drop_subset _ _ h1)
      · simp at hf
  · simp at hf

theorem matchP3_sub (cs g1 g2 : List Char) (h : matchP3 cs = some (g1, g2)) :
    g1 ⊆ cs ∧ g2 ⊆ cs := by
  unfold matchP3 at h
  obtain ⟨k, _, hf⟩ := firstSome_mem _ _ _ h
  split at hf
  · split at hf
    · simp at hf
    · split at hf
      · rename_i b y u2 hu2
        split at hf
        · rw [Option.map_eq_some'] at hf
          obtain ⟨g, hend, hpair⟩ := hf
          injection hpair with hA hB
          refine ⟨by rw [← hA]; exact List.take_subset _ _, ?_⟩
          rw [← hB]
          intro c hc
          have h1 : c ∈ b :: y :: u2 :=
            List.mem_cons_of_mem b
              (List.mem_cons_of_mem y (endAuthorGroup_sub _ _ _ hend hc))
          rw [← hu2] at h1
          exact List.drop_subset _ _ (List.drop_subset _ _ h1)
        · simp at hf
      · simp at hf
  · simp at hf

theorem matchP4_sub (cs g1 g2 : List Char) (h : matchP4 cs = some (g1, g2)) :
    g1 ⊆ cs ∧ g2 ⊆ cs := by
  unfold matchP4 at h
  obtain ⟨k, _, hf⟩ := firstSome_mem _ _ _ h
  split at hf
  · split at hf
    · simp at hf
    · split at hf
      · rename_i w hw
        split at hf
        · injection hf with hf
          injection hf with hA hB
          refine ⟨by rw [← hA]; exact List.take_subset _ _, ?_⟩
          rw [← hB]
          intro c hc
          have h1 : c ∈ '(' :: w :=
            List.mem_cons_of_mem '(' (List.takeWhile_subset _ hc)
          rw [← hw] at h1
          exact List.drop_subset _ _ (List.drop_subset _ _ h1)
        · simp at hf
      · simp at hf
  · simp at hf

theorem decideSplit_title (a b : List Char) (y : Option Nat) :
    (decideSplit a b y).title = some (trimJS a) ∨
    (decideSplit a b y).title = some (trimJS b) := by
  by_cases h1 : isLikelyAuthor (trimJS a) = true
  · simp [decideSplit, h1]
  · by_cases h2 : isLikelyAuthor (trimJS b) = true
    · simp [decideSplit, h1, h2]
    · by_cases h3 : (trimJS a).length ≤ (trimJS b).length
      · simp [decideSplit, h1, h2, h3]
      · simp [decideSplit, h1, h2, h3]

theorem parseFilename_title_mem (fn : List Char) (c : Char)
    (h : c ∈ (parseFilename fn).title.getD []) : c = ' ' ∨ c ∈ fn := by
  have via_group : ∀ (g : List Char), g ⊆ cleanNameOf fn → c ∈ trimJS g →
      c = ' ' ∨ c ∈ fn := by
    intro g hsub hc
    exact cleanNameOf_mem fn c (hsub (trimJS_subset g hc))
  unfold parseFilename at h
  split at h
  · rename_i g1 g2 hm
    rcases decideSplit_title g1 g2 (yearOf fn) with ht | ht <;> rw [ht] at h <;>
      simp only [Option.getD_some] at h
    · exact via_group g1 (matchP1_sub _ _ _ hm).1 h
    · exact via_group g2 (matchP1_sub _ _ _ hm).2 h
  · split at h
    · rename_i g1 g2 hm
      rcases decideSplit_title g1 g2 (yearOf fn) with ht | ht <;> rw [ht] at h <;>
        simp only [Option.getD_some] at h
      · exact via_group g1 (matchP2_sub _ _ _ hm).1 h
      · exact via_group g2 (matchP2_sub _ _ _ hm).2 h
    · split at h
      · rename_i g1 g2 hm
        rcases decideSplit_title g1 g2 (yearOf fn) with ht | ht <;> rw [ht] at h <;>
          simp only [Option.getD_some] at h
        · exact via_group g1 (matchP3_sub _ _ _ hm).1 h
        · exact via_group g2 (matchP3_sub _ _ _ hm).2 h
      · split at h
        · rename_i g1 g2 hm
          rcases decideSplit_title g1 g2 (yearOf fn) with ht | ht <;> rw [ht] at h <;>
            simp only [Option.getD_some] at h
          · exact via_group g1 (matchP4_sub _ _ _ hm).1 h
          · exact via_group g2 (matchP4_sub _ _ _ hm).2 h
        · split at h
          · simp only [Option.getD_some] at h
            exact cleanNameOf_mem fn c (trimJS_subset _ h)
          · simp only [Option.getD_some] at h
            exact cleanNameOf_mem fn c h

theorem baseName_noslash (p : List Char) : '/' ∉ baseName p := by
  intro h
  unfold baseName at h
  rw [List.mem_reverse] at h
  have := List.mem_takeWhile_imp h
  simp at this

theorem removeTrailingDashPat_subset (cs : List Char) :
    removeTrailingDashPat cs ⊆ cs := by
  unfold removeTrailingDashPat
  split
  · intro c hc
    exact rtrimSpaces_subset cs
      (List.dropLast_subset _ (rtrimSpaces_subset _ hc))
  · exact fun c hc => hc

theorem removeLeadingDashPat_subset (cs : List Char) :
    removeLeadingDashPat cs ⊆ cs := by
  unfold removeLeadingDashPat
  split
  · rename_i rest hrest
    intro c hc
    have h1 : c ∈ '-' :: rest :=
      List.mem_cons_of_mem '-' (List.dropWhile_subset _ hc)
    rw [← hrest] at h1
    exact List.dropWhile_subset _ h1
  · exact fun c hc => hc

theorem cleanTitleOf_noslash (m : Meta) (h : '/' ∉ m.title.getD []) :
    '/' ∉ cleanTitleOf m := by
  intro hc
  unfold cleanTitleOf at hc
  have h1 := removeTrailingDashPat_subset _ (removeLeadingDashPat_subset _ hc)
  rcases cleanupText_mem _ _ h1 with h2 | h2
  · simp at h2
  · exact h h2

theorem sanitizeChar_ne_slash (c : Char) : sanitizeChar c ≠ '/' := by
  unfold sanitizeChar
  split
  · decide
  · rename_i hg
    intro hc
    exact hg (by rw [hc]; simp)

theorem ddMatchRem_subset (u rem : List Char) (h : ddMatchRem u = some rem) :
    rem ⊆ u := by
  unfold ddMatchRem at h
  split at h
  · simp at h
  · split at h
    · rename_i v hv
      split at h
      · simp at h
      · split at h
        · rename_i w hw
          split at h
          · simp at h
          · injection h with h
            intro c hc
            rw [← h] at hc
            have hcw : c ∈ w := List.drop_subset _ _ hc
            have hcv : c ∈ v := by
              have : c ∈ '-' :: w := List.mem_cons_of_mem '-' hcw
              rw [← hw] at this
              exact List.drop_subset _ _ this
            have : c ∈ '-' :: v := List.mem_cons_of_mem '-' hcv
            rw [← hv] at this
            exact List.drop_subset _ _ this
        · simp at h
    · simp at h

theorem ddReplaceF_mem : ∀ (fuel : Nat) (cs : List Char) (c : Char),
    c ∈ ddReplaceF fuel cs → c ∈ cs ∨ c = ' ' ∨ c = '-' := by
  intro fuel
  induction fuel with
  | zero => intro cs c h; simp [ddReplaceF] at h
  | succ fuel ih =>
    intro cs c h
    cases cs with
    | nil => simp [ddReplaceF] at h
    | cons a as =>
      simp only [ddReplaceF] at h
      split at h
      · rename_i rem hrem
        rcases List.mem_cons.mp h with h | h
        · exact Or.inr (Or.inl h)
        · rcases List.mem_cons.mp h with h | h
          · exact Or.inr (Or.inr h)
          · rcases List.mem_cons.mp h with h | h
            · exact Or.inr (Or.inl h)
            · rcases ih _ _ h with h | h
              · exact Or.inl (ddMatchRem_subset _ _ hrem h)
              · exact Or.inr h
      · rcases List.mem_cons.mp h with h | h
        · exact Or.inl (by simp [h])
        · rcases ih _ _ h with h | h
          · exact Or.inl (List.mem_cons_of_mem a h)
          · exact Or.inr h

theorem natToCharsF_digits : ∀ (fuel n : Nat) (c : Char),
    c ∈ natToCharsF fuel n → ∃ d, d < 10 ∧ c = digitCharJS d := by
  intro fuel
  induction fuel with
  | zero => intro n c h; simp [natToCharsF] at h
  | succ fuel ih =>
    intro n c h
    simp only [natToCharsF] at h
    split at h
    · rename_i hn
      simp only [List.mem_singleton] at h
      exact ⟨n, by omega, h⟩
    · rcases List.mem_append.mp h with h | h
      · exact ih _ _ h
      · simp only [List.mem_singleton] at h
        exact ⟨n % 10, Nat.mod_lt _ (by omega), h⟩

theorem digitCharJS_ne_slash (d : Nat) (hd : d < 10) : digitCharJS d ≠ '/' := by
  interval_cases d <;> decide

theorem yearSuffixOf_noslash (m : Meta) : '/' ∉ yearSuffixOf m := by
  intro h
  unfold yearSuffixOf at h
  split at h
  · rcases List.mem_cons.mp h with h | h
    · simp at h
    · rcases List.mem_cons.mp h with h | h
      · simp at h
      · rcases List.mem_append.mp h with h | h
        · obtain ⟨d, hd, hc⟩ := natToCharsF_digits _ _ _ h
          exact digitCharJS_ne_slash d hd hc.symm
        · simp at h
  · simp at h

theorem sanitizedOf_noslash (m : Meta) : '/' ∉ sanitizedOf m := by
  intro h
  unfold sanitizedOf at h
  have h1 := trimJS_subset _ h
  rcases collapseRunsF_mem isSpaceJS ' ' _ _ _ h1 with h2 | h2
  · simp at h2
  · rcases ddReplaceF_mem _ _ _ h2 with h3 | h3 | h3
    · rw [List.mem_map] at h3
      obtain ⟨a, _, ha⟩ := h3
      exact sanitizeChar_ne_slash a ha
    · simp at h3
    · simp at h3

/-- If the metadata's title contains no `/`, neither does the generated
filename — on the sanitized path because the sanitizer maps `/` to `-`, and
on the anomaly-fallback path because the rebuilt name only uses the cleaned
title and the year. -/
theorem generateNewFilename_noslash (m : Meta) (out : List Char)
    (ht : '/' ∉ m.title.getD []) (h : generateNewFilename m = some out) :
    '/' ∉ out := by
  unfold generateNewFilename at h
  split at h
  · simp at h
  · split at h
    · simp at h
    · split at h
      · injection h with h
        intro hc
        rw [← h] at hc
        rcases List.mem_append.mp hc with h1 | h1
        · rcases List.mem_append.mp h1 with h2 | h2
          · exact cleanTitleOf_noslash m ht h2
          · exact yearSuffixOf_noslash m h2
        · simp at h1
      · injection h with h
        intro hc
        rw [← h] at hc
        rcases List.mem_append.mp hc with h1 | h1
        · exact sanitizedOf_noslash m h1
        · simp at h1

theorem dirNameAux_eq_none (l : List Char) (h : '/' ∉ l) : dirNameAux l = none := by
  induction l with
  | nil => rfl
  | cons c cs ih =>
    simp only [dirNameAux]
    rw [ih (fun hc => h (List.mem_cons_of_mem c hc))]
    simp only []
    rw [if_neg (fun hc => h (by rw [hc]; simp))]

theorem dirNameAux_append (d n : List Char) (h : '/' ∉ n) :
    dirNameAux (d ++ '/' :: n) = some d := by
  induction d with
  | nil =>
    simp only [List.nil_append, dirNameAux]
    rw [dirNameAux_eq_none n h]
    simp
  | cons c cs ih =>
    simp only [List.cons_append, dirNameAux, List.append_eq]
    rw [ih]

/-- Concatenating a directory, the separator and a separator-free name, and
taking the directory back, is the identity. -/
theorem dirName_concat (d n : List Char) (hd : d ≠ []) (h : '/' ∉ n) :
    dirName (d ++ '/' :: n) = d := by
  unfold dirName
  rw [dirNameAux_append d n h]
  cases d with
  | nil => exact absurd rfl hd
  | cons c cs => rfl

theorem dirName_ne_nil (p : List Char) : dirName p ≠ [] := by
  unfold dirName
  split
  · simp
  · simp
  · rename_i q hcon heq
    exact fun hy => hcon hy

theorem resolvedMeta_none (fm : Meta) : resolvedMeta none fm = fm := by
  unfold resolvedMeta
  split <;> rfl

theorem splitSlashGo_shape (cs : List Char) : ∀ acc,
    ∃ t ts, splitSlashGo acc cs = t :: ts := by
  induction cs with
  | nil => intro acc; exact ⟨acc.reverse, [], rfl⟩
  | cons c cs ih =>
    intro acc
    by_cases hc : c = '/'
    · exact ⟨acc.reverse, splitSlashGo [] cs, by simp [splitSlashGo, hc]⟩
    · obtain ⟨t, ts, h⟩ := ih (c :: acc)
      exact ⟨t, ts, by simp only [splitSlashGo, if_neg hc]; exact h⟩

theorem joinSegs_cons_cons (s t : List Char) (ts : List (List Char)) :
    joinSegs (s :: t :: ts) = s ++ '/' :: joinSegs (t :: ts) := rfl

/-- `joinSegs` undoes `splitSlashGo`. -/
theorem joinSegs_splitSlashGo (cs : List Char) : ∀ acc,
    joinSegs (splitSlashGo acc cs) = acc.reverse ++ cs := by
  induction cs with
  | nil => intro acc; simp [splitSlashGo, joinSegs]
  | cons c cs ih =>
    intro acc
    by_cases hc : c = '/'
    · obtain ⟨t, ts, hts⟩ := splitSlashGo_shape cs []
      rw [show splitSlashGo acc (c :: cs) = acc.reverse :: splitSlashGo [] cs from by
        simp [splitSlashGo, hc]]
      rw [hts, joinSegs_cons_cons, ← hts, ih []]
      simp [hc]
    · rw [show splitSlashGo acc (c :: cs) = splitSlashGo (c :: acc) cs from by
        simp only [splitSlashGo, if_neg hc]]
      rw [ih (c :: acc)]
      simp

theorem splitSlashGo_noslash (n : List Char) (h : '/' ∉ n) : ∀ acc,
    splitSlashGo acc n = [acc.reverse ++ n] := by
  induction n with
  | nil => intro acc; simp [splitSlashGo]
  | cons c cs ih =>
    intro acc
    have hc : ¬c = '/' := fun hc => h (by rw [hc]; exact List.mem_cons_self _ _)
    rw [show splitSlashGo acc (c :: cs) = splitSlashGo (c :: acc) cs from by
      simp only [splitSlashGo, if_neg hc]]
    rw [ih (fun hm => h (List.mem_cons_of_mem c hm)) (c :: acc)]
    simp

theorem splitSlashGo_append_slash (n : List Char) (h : '/' ∉ n) (u : List Char) :
    ∀ acc, splitSlashGo acc (u ++ '/' :: n) = splitSlashGo acc u ++ [n] := by
  induction u with
  | nil =>
    intro acc
    rw [List.nil_append,
      show splitSlashGo acc ('/' :: n) = acc.reverse :: splitSlashGo [] n from by
        simp [splitSlashGo]]
    rw [splitSlashGo_noslash n h []]
    simp [splitSlashGo]
  | cons c u ih =>
    intro acc
    by_cases hc : c = '/'
    · rw [List.cons_append,
        show splitSlashGo acc (c :: (u ++ '/' :: n)) =
            acc.reverse :: splitSlashGo [] (u ++ '/' :: n) from by
          simp [splitSlashGo, hc],
        show splitSlashGo acc (c :: u) = acc.reverse :: splitSlashGo [] u from by
          simp [splitSlashGo, hc],
        ih []]
      simp
    · rw [List.cons_append,
        show splitSlashGo acc (c :: (u ++ '/' :: n)) =
            splitSlashGo (c :: acc) (u ++ '/' :: n) from by
          simp only [splitSlashGo, if_neg hc],
        show splitSlashGo acc (c :: u) = splitSlashGo (c :: acc) u from by
          simp only [splitSlashGo, if_neg hc],
        ih (c :: acc)]

theorem splitSlash_cons_slash (t : List Char) :
    splitSlash ('/' :: t) = [] :: splitSlash t := by
  simp [splitSlash, splitSlashGo]

theorem splitSlash_append_slash (u n : List Char) (h : '/' ∉ n) :
    splitSlash (u ++ '/' :: n) = splitSlash u ++ [n] :=
  splitSlashGo_append_slash n h u []

theorem normSegs_skip_empty (allow : Bool) (stack ss : List (List Char)) :
    normSegs allow stack ([] :: ss) = normSegs allow stack ss := by
  simp [normSegs]

/-- On segments that are all good, normalization is the identity. -/
theorem normSegs_allGood (allow : Bool) (segs : List (List Char))
    (h : segs.all goodSeg = true) :
    ∀ stack, normSegs allow stack segs = stack.reverse ++ segs := by
  induction segs with
  | nil => intro stack; simp [normSegs]
  | cons s ss ih =>
    intro stack
    rw [List.all_cons, Bool.and_eq_true] at h
    have hne : s ≠ [] ∧ s ≠ ['.'] ∧ s ≠ ['.', '.'] := by
      have hg := h.1
      simp only [goodSeg, Bool.and_eq_true, Bool.not_eq_true', decide_eq_false_iff_not,
        List.isEmpty_eq_false] at hg
      exact ⟨hg.1.1, hg.1.2, hg.2⟩
    rw [show normSegs allow stack (s :: ss) = normSegs allow (s :: stack) ss from by
      simp [normSegs, hne.1, hne.2.1, hne.2.2]]
    rw [ih h.2 (s :: stack)]
    simp

theorem splitSlashGo_last_slash (t : List Char) :
    ∀ acc, t.getLast? = some '/' → [] ∈ splitSlashGo acc t := by
  induction t with
  | nil => intro acc h; simp at h
  | cons c cs ih =>
    intro acc h
    cases cs with
    | nil =>
      have hc : c = '/' := by simpa using h
      rw [show splitSlashGo acc [c] = acc.reverse :: splitSlashGo [] [] from by
        simp [splitSlashGo, hc]]
      simp [splitSlashGo]
    | cons c2 cs2 =>
      have h2 : (c2 :: cs2).getLast? = some '/' := by
        rw [List.getLast?_cons_cons] at h; exact h
      by_cases hc : c = '/'
      · rw [show splitSlashGo acc (c :: c2 :: cs2) =
            acc.reverse :: splitSlashGo [] (c2 :: cs2) from by simp [splitSlashGo, hc]]
        exact List.mem_cons_of_mem _ (ih [] h2)
      · rw [show splitSlashGo acc (c :: c2 :: cs2) =
            splitSlashGo (c :: acc) (c2 :: cs2) from by
          simp only [splitSlashGo, if_neg hc]]
        exact ih (c :: acc) h2

/-- A string whose segments are all good is nonempty and has no trailing
separator. -/
theorem allGood_path_shape (t : List Char) (h : (splitSlash t).all goodSeg = true) :
    t ≠ [] ∧ t.getLast? ≠ some '/' := by
  constructor
  · intro he
    rw [he] at h
    simp [splitSlash, splitSlashGo, goodSeg] at h
  · intro hl
    have hmem := splitSlashGo_last_slash t [] hl
    rw [List.all_eq_true] at h
    have hbad := h [] hmem
    simp [goodSeg] at hbad

theorem normCore_abs_clean (t : List Char) (h : (splitSlash t).all goodSeg = true) :
    normCore ('/' :: t) = t := by
  unfold normCore
  rw [splitSlash_cons_slash]
  rw [show (!isAbsPath ('/' :: t)) = false from rfl]
  rw [normSegs_skip_empty false [] (splitSlash t)]
  rw [normSegs_allGood false (splitSlash t) h []]
  rw [List.reverse_nil, List.nil_append]
  have hj := joinSegs_splitSlashGo t []
  rw [List.reverse_nil, List.nil_append] at hj
  exact hj

/-- A clean absolute path is a fixpoint of `path.normalize`. -/
theorem normalizePath_clean (t : List Char) (h : (splitSlash t).all goodSeg = true) :
    normalizePath ('/' :: t) = '/' :: t := by
  obtain ⟨hne, hlast⟩ := allGood_path_shape t h
  have hcore := normCore_abs_clean t h
  unfold normalizePath
  rw [hcore]
  rw [if_neg (by simp)]
  rw [if_neg (by simp [hne])]
  rw [if_pos (show isAbsPath ('/' :: t) = true from rfl)]
  rw [if_neg ?htrail]
  · simp
  case htrail =>
    intro hcon
    simp only [hasTrailSlash, decide_eq_true_eq] at hcon
    cases t with
    | nil => exact hne rfl
    | cons a t2 =>
      rw [List.getLast?_cons_cons] at hcon
      exact hlast hcon

/-- `path.normalize` collapses the doubled separator of
`path.join("/", name)`. -/
theorem normalizePath_root (n : List Char) (h : '/' ∉ n) (hg : goodSeg n = true) :
    normalizePath ('/' :: '/' :: n) = '/' :: n := by
  have hne : n ≠ [] := by
    intro he; rw [he] at hg; simp [goodSeg] at hg
  have hsplit : splitSlash ('/' :: '/' :: n) = [] :: [] :: [n] := by
    rw [splitSlash_cons_slash, splitSlash_cons_slash]
    rw [show splitSlash n = [n] from by
      have hgo := splitSlashGo_noslash n h []
      simpa [splitSlash] using hgo]
  have hall : ([n].all goodSeg) = true := by simp [hg]
  have hcore : normCore ('/' :: '/' :: n) = n := by
    unfold normCore
    rw [hsplit, show (!isAbsPath ('/' :: '/' :: n)) = false from rfl]
    rw [normSegs_skip_empty, normSegs_skip_empty]
    rw [normSegs_allGood false [n] hall []]
    rfl
  unfold normalizePath
  rw [hcore]
  rw [if_neg (by simp)]
  rw [if_neg (by simp [hne])]
  rw [if_pos (show isAbsPath ('/' :: '/' :: n) = true from rfl)]
  rw [if_neg ?htrail2]
  · simp
  case htrail2 =>
    intro hcon
    simp only [hasTrailSlash, decide_eq_true_eq] at hcon
    cases n with
    | nil => exact hne rfl
    | cons a n2 =>
      rw [List.getLast?_cons_cons, List.getLast?_cons_cons] at hcon
      obtain ⟨hx, heq⟩ := List.mem_getLast?_eq_getLast (l := a :: n2) (x := '/')
        (by rw [Option.mem_def]; exact hcon)
      exact h (by rw [heq]; exact List.getLast_mem hx)

theorem last_slash_split (t : List Char) (h : '/' ∈ t) :
    ∃ u v, t = u ++ '/' :: v ∧ '/' ∉ v := by
  induction t with
  | nil => simp at h
  | cons c cs ih =>
    by_cases h2 : '/' ∈ cs
    · obtain ⟨u, v, heq, hv⟩ := ih h2
      exact ⟨c :: u, v, by rw [heq]; rfl, hv⟩
    · have hc : c = '/' := by
        rcases List.mem_cons.mp h with h3 | h3
        · exact h3.symm
        · exact absurd h3 h2
      exact ⟨[], cs, by rw [hc]; rfl, h2⟩

/-- The directory of a clean path is the root or itself clean. -/
theorem cleanPath_dirName (p : List Char) (h : cleanPath p = true) :
    dirName p = ['/'] ∨
    (∃ t, dirName p = '/' :: t ∧ (splitSlash t).all goodSeg = true) := by
  rw [cleanPath, Bool.and_eq_true, decide_eq_true_eq] at h
  obtain ⟨hhead, hall⟩ := h
  cases p with
  | nil => simp at hhead
  | cons c t =>
    have hc : c = '/' := by simpa using hhead
    subst hc
    simp only [List.tail_cons] at hall
    by_cases hsl : '/' ∈ t
    · obtain ⟨u, v, heq, hv⟩ := last_slash_split t hsl
      subst heq
      refine Or.inr ⟨u, ?_, ?_⟩
      · rw [show ('/' :: (u ++ '/' :: v)) = ('/' :: u) ++ '/' :: v from rfl]
        exact dirName_concat ('/' :: u) v (by simp) hv
      · rw [splitSlash_append_slash u v hv, List.all_append, Bool.and_eq_true] at hall
        exact hall.1
    · left
      have haux : dirNameAux ('/' :: t) = some [] := by
        simp only [dirNameAux]
        rw [dirNameAux_eq_none t hsl]
        simp
      rw [dirName, haux]

/-- Joining a clean path's directory with a separator-free good filename and
taking the directory back is the identity — the `path.join` of the source
stays inside `dirname(filePath)`. -/
theorem joinPath_dirName_stay (p nf : List Char) (hc : cleanPath p = true)
    (hs : '/' ∉ nf) (hg : goodSeg nf = true) :
    dirName (joinPath (dirName p) nf) = dirName p := by
  have hnfne : nf ≠ [] := by
    intro he; rw [he] at hg; simp [goodSeg] at hg
  rcases cleanPath_dirName p hc with hd | ⟨t, hd, hall⟩
  · rw [hd]
    have hjoin : joinPath ['/'] nf = normalizePath (['/'] ++ '/' :: nf) := by
      unfold joinPath
      rw [if_neg (by simp), if_neg (by simp), if_neg (by simp [hnfne])]
    have haux : dirNameAux ('/' :: nf) = some [] := by
      simp only [dirNameAux]
      rw [dirNameAux_eq_none nf hs]
      simp
    rw [hjoin, show (['/'] ++ '/' :: nf) = '/' :: '/' :: nf from rfl,
      normalizePath_root nf hs hg, dirName, haux]
  · rw [hd]
    have hjoin : joinPath ('/' :: t) nf = normalizePath (('/' :: t) ++ '/' :: nf) := by
      unfold joinPath
      rw [if_neg (by simp), if_neg (by simp), if_neg (by simp [hnfne])]
    have hall2 : (splitSlash (t ++ '/' :: nf)).all goodSeg = true := by
      rw [splitSlash_append_slash t nf hs, List.all_append]
      simp [hall, hg]
    rw [hjoin, show (('/' :: t) ++ '/' :: nf) = '/' :: (t ++ '/' :: nf) from rfl,
      normalizePath_clean (t ++ '/' :: nf) hall2,
      show ('/' :: (t ++ '/' :: nf)) = ('/' :: t) ++ '/' :: nf from rfl]
    exact dirName_concat ('/' :: t) nf (by simp) hs

/-- Every filename `generateNewFilename` returns ends in `.pdf`. -/
theorem generateNewFilename_pdf (m : Meta) (out : List Char)
    (h : generateNewFilename m = some out) :
    ∃ s, out = s ++ '.' :: 'p' :: 'd' :: ['f'] := by
  unfold generateNewFilename at h
  split at h
  · simp at h
  · split at h
    · simp at h
    · split at h
      · injection h with h
        exact ⟨_, h.symm⟩
      · injection h with h
        exact ⟨_, h.symm⟩

theorem goodSeg_of_long (s : List Char) (h : 2 < s.length) : goodSeg s = true := by
  have h1 : s ≠ [] := by intro he; rw [he] at h; simp at h
  have h2 : s ≠ ['.'] := by intro he; rw [he] at h; simp at h
  have h3 : s ≠ ['.', '.'] := by intro he; rw [he] at h; simp at h
  simp [goodSeg, h1, h2, h3]

/-- C10 amended: a rename stays in the source file's directory whenever the
source path is clean (as every path `getAllPdfFiles` yields is — they are
`path.join` outputs) and the resolved title contains no path separator;
filename-derived titles never contain one, so with no external metadata the
property needs no title hypothesis.  An externally-extracted title, however,
can smuggle `/`s through the unsanitized anomaly fallback, and then the
normalized target leaves the directory (see the counterexample). -/
theorem renames_stay_in_place (e : Option Meta) (fs : FS) (p s d : List Char) :
    (cleanPath p = true →
      '/' ∉ (resolvedMeta e (parseFilename (baseName p))).title.getD [] →
      (processPdfFile e fs p).2 = Outcome.renamed s d →
      dirName d = dirName p) ∧
    ('/' ∉ (parseFilename (baseName p)).title.getD []) ∧
    (cleanPath p = true →
      (processPdfFile none fs p).2 = Outcome.renamed s d → dirName d = dirName p) := by
  have htitle : '/' ∉ (parseFilename (baseName p)).title.getD [] := by
    intro hc
    rcases parseFilename_title_mem (baseName p) '/' hc with h | h
    · simp at h
    · exact baseName_noslash p h
  have hmain : ∀ (e' : Option Meta), cleanPath p = true →
      '/' ∉ (resolvedMeta e' (parseFilename (baseName p))).title.getD [] →
      (processPdfFile e' fs p).2 = Outcome.renamed s d → dirName d = dirName p := by
    intro e' hcp ht ho
    rcases processPdfFile_cases e' fs p with ⟨_, ho2⟩ |
      ⟨nf, hgen, hnf, hguard, hren, hfs, hout⟩
    · rw [ho] at ho2
      exact absurd ho2 (by simp [Outcome.isRename])
    · rw [hout, Outcome.renamed.injEq] at ho
      rw [← ho.2]
      obtain ⟨s0, hs0⟩ := generateNewFilename_pdf _ nf hgen
      refine joinPath_dirName_stay p nf hcp
        (generateNewFilename_noslash _ nf ht hgen)
        (goodSeg_of_long nf ?_)
      rw [hs0]
      simp
  refine ⟨hmain e, htitle, ?_⟩
  intro hcp ho
  exact hmain none hcp (by rw [resolvedMeta_none]; exact htitle) ho

theorem renames_stay_in_place_witness :
    dirName ("/d/A b.pdf".data) = dirName ("/d/A_b.pdf".data) :=
  (renames_stay_in_place none ⟨[(("/d/A_b.pdf".data), 0)]⟩ ("/d/A_b.pdf".data)
    ("/d/A_b.pdf".data) ("/d/A b.pdf".data)).2.2 (by decide) (by decide)

/-- C10 counterexample: an externally-extracted title `a////b` (whose
sanitized form trips the anomaly check, so the fallback keeps the raw `/`s)
makes processing `/lib/_.pdf` compute the target
`path.join("/lib", "a////b.pdf") = /lib/a/b.pdf`; the directory `/lib/a`
exists (it holds `z.pdf`), the rename succeeds, and the file leaves its
directory `/lib`. -/
theorem c10_counterexample :
    (processPdfFile (some ⟨some ("a////b".data), none, none⟩)
        ⟨[(("/lib/_.pdf".data), 0), (("/lib/a/z.pdf".data), 1)]⟩
        ("/lib/_.pdf".data)).2 =
      Outcome.renamed ("/lib/_.pdf".data) ("/lib/a/b.pdf".data) ∧
    dirName ("/lib/a/b.pdf".data) ≠ dirName ("/lib/_.pdf".data) := by
  refine ⟨by decide, by decide⟩

/-- C1: the collision check races against the rename.  `/d/A_b.pdf` and
`/d/A.b.pdf` both resolve to the target `/d/A b.pdf`; under the overlapping
schedule check₁ · check₂ · rename₁ · rename₂ — which the worker pool admits,
its default concurrency limit being 2 × CPUs ≥ 2 — both `fs.pathExists`
checks see no collision, both files are renamed to the same target, and the
second rename destroys the first file's content: more than one file is
renamed and an existing distinct file is overwritten. -/
theorem c1_race_overwrite :
    pdfCheck none ⟨[(("/d/A_b.pdf".data), 0), (("/d/A.b.pdf".data), 1)]⟩
        ("/d/A_b.pdf".data) = some ("/d/A b.pdf".data) ∧
    pdfCheck none ⟨[(("/d/A_b.pdf".data), 0), (("/d/A.b.pdf".data), 1)]⟩
        ("/d/A.b.pdf".data) = some ("/d/A b.pdf".data) ∧
    processTwoRaced none none ⟨[(("/d/A_b.pdf".data), 0), (("/d/A.b.pdf".data), 1)]⟩
        ("/d/A_b.pdf".data) ("/d/A.b.pdf".data) =
      (⟨[(("/d/A b.pdf".data), 1)]⟩, true, true) := by
  refine ⟨by decide, by decide, by decide⟩

/-- A concrete run of `collision_safety`: the target `/d/A b.pdf` already
exists, so processing `/d/A_b.pdf` is skipped; and of two files `/d/A_b.pdf`,
`/d/A.b.pdf` that both resolve to `/d/A b.pdf`, processed one after the
other, only the first is renamed — the second is left untouched. -/
theorem collision_safety_witness :
    ((processPdfFile none ⟨[(("/d/A_b.pdf".data), 0), (("/d/A b.pdf".data), 1)]⟩
        ("/d/A_b.pdf".data)).1 =
          ⟨[(("/d/A_b.pdf".data), 0), (("/d/A b.pdf".data), 1)]⟩ ∧
      (processPdfFile none ⟨[(("/d/A_b.pdf".data), 0), (("/d/A b.pdf".data), 1)]⟩
        ("/d/A_b.pdf".data)).2.isRename = false) ∧
    ((processPdfFile none
        (processPdfFile none ⟨[(("/d/A_b.pdf".data), 0), (("/d/A.b.pdf".data), 1)]⟩
          ("/d/A_b.pdf".data)).1 ("/d/A.b.pdf".data)).1 =
      (processPdfFile none ⟨[(("/d/A_b.pdf".data), 0), (("/d/A.b.pdf".data), 1)]⟩
        ("/d/A_b.pdf".data)).1 ∧
      (processPdfFile none
        (processPdfFile none ⟨[(("/d/A_b.pdf".data), 0), (("/d/A.b.pdf".data), 1)]⟩
          ("/d/A_b.pdf".data)).1 ("/d/A.b.pdf".data)).2.isRename = false) := by
  refine ⟨(collision_safety none none none
      ⟨[(("/d/A_b.pdf".data), 0), (("/d/A b.pdf".data), 1)]⟩
      ("/d/A_b.pdf".data) ("/d/A b.pdf".data) ("/d/A_b.pdf".data)
      ("/d/A_b.pdf".data)).1 (by decide) (by decide) (by decide),
    (collision_safety none none none
      ⟨[(("/d/A_b.pdf".data), 0), (("/d/A.b.pdf".data), 1)]⟩
      ("/d/A_b.pdf".data) ("/d/A b.pdf".data) ("/d/A_b.pdf".data)
      ("/d/A.b.pdf".data)).2.2 (by decide) (by decide) (by decide) (by decide)⟩

end PdfOrganizer
